import Mathlib

/-!
# The `extract_fee` plugin of txpipe/oura

`examples/wasm_basic/extract_fee/main.go` exports one function, `map_u5c_tx`.
It asks the host for its input (`pdk.InputJSON`), indexes the decoded record
at `"fee"`, asserts the result to `interface{}` and hands it back
(`pdk.OutputJSON`), reporting failures with `pdk.SetError`.

The development has three layers.

* `map_u5c_tx`, `pdk.InputJSON`, `pdk.OutputJSON`, `pdk.SetError`: the exported
  function and the three calls it makes, over an explicit host state.
* `json.Unmarshal`, `json.Marshal`: a model of the part of Go's `encoding/json`
  those calls run (decoding into `map[string]interface{}` and `interface{}`,
  encoding such values).  JSON text is a list of Unicode characters, that is,
  the input is taken to be well-formed UTF-8.
* `Strconv`: the conversion between number literals and `float64`, which is a
  parameter of the whole development.
-/

namespace ExtractFee

/-! ## JSON text -/

/-- Syntax tree of a JSON text.  A number keeps its literal, an object keeps
its members in the order of the text, repeated keys included. -/
inductive JNode where
  | null
  | bool (b : Bool)
  | number (lit : List Char)
  | string (s : List Char)
  | array (elems : List JNode)
  | object (members : List (List Char × JNode))

/-- Result of reading a piece of JSON text: the value read and the text left,
a syntax error, or `outOfFuel` when the recursion budget of the reader was too
small (`parseDocument_ne_outOfFuel` shows the budget of `parseDocument` never is). -/
inductive Parsed (α : Type) where
  | ok (a : α) (rest : List Char)
  | syntaxError
  | outOfFuel

/-- The four characters the scanner skips between tokens. -/
def isSpace (c : Char) : Bool :=
  c = ' ' || c = '\t' || c = '\r' || c = '\n'

/-- Drops leading white space. -/
def skipSpace : List Char → List Char
  | [] => []
  | c :: rest => if isSpace c then skipSpace rest else c :: rest

/-- Decimal digit. -/
def isDigit (c : Char) : Bool := 48 ≤ c.toNat && c.toNat ≤ 57

/-- Characters that can occur in a number literal. -/
def isNumberChar (c : Char) : Bool :=
  isDigit c || c = '-' || c = '+' || c = '.' || c = 'e' || c = 'E'

/-- Splits off the longest run of number characters.  No number character can
follow a complete number in a valid text, so a text is accepted exactly when
this run is a number literal. -/
def spanNumber : List Char → List Char × List Char
  | [] => ([], [])
  | c :: rest =>
    if isNumberChar c then ((spanNumber rest).1.cons c, (spanNumber rest).2)
    else ([], c :: rest)

/-- Drops leading digits. -/
def dropDigits : List Char → List Char
  | [] => []
  | c :: rest => if isDigit c then dropDigits rest else c :: rest

/-- One or more digits; returns what follows them. -/
def digits1 (l : List Char) : Option (List Char) :=
  match l with
  | [] => none
  | c :: rest => if isDigit c then some (dropDigits rest) else none

/-- Drops one optional sign. -/
def stripSign (l : List Char) : List Char :=
  match l with
  | [] => []
  | c :: rest => if c = '+' || c = '-' then rest else c :: rest

/-- Optional exponent part, up to the end of the literal. -/
def isExponent (l : List Char) : Bool :=
  match l with
  | [] => true
  | c :: rest =>
    if c = 'e' || c = 'E' then
      match digits1 (stripSign rest) with
      | some [] => true
      | _ => false
    else false

/-- Optional fraction part followed by the optional exponent. -/
def isFraction (l : List Char) : Bool :=
  match l with
  | [] => true
  | c :: rest =>
    if c = '.' then
      match digits1 rest with
      | some tail => isExponent tail
      | none => false
    else isExponent (c :: rest)

/-- Integer part (`0`, or a non-zero digit and more digits) and what follows. -/
def isUnsigned (l : List Char) : Bool :=
  match l with
  | [] => false
  | c :: rest =>
    if c = '0' then isFraction rest
    else if isDigit c then isFraction (dropDigits rest)
    else false

/-- The JSON number grammar: `-? (0 | [1-9][0-9]*) (.[0-9]+)? ([eE][+-]?[0-9]+)?`. -/
def isNumberLit (l : List Char) : Bool :=
  match l with
  | [] => false
  | c :: rest => if c = '-' then isUnsigned rest else isUnsigned (c :: rest)

/-- Value of a hexadecimal digit, either case. -/
def hexVal (c : Char) : Option Nat :=
  if 48 ≤ c.toNat && c.toNat ≤ 57 then some (c.toNat - 48)
  else if 97 ≤ c.toNat && c.toNat ≤ 102 then some (c.toNat - 87)
  else if 65 ≤ c.toNat && c.toNat ≤ 70 then some (c.toNat - 55)
  else none

/-- The four hexadecimal digits of a `\u` escape (`getu4`). -/
def hex4 (a b c d : Char) : Option Nat :=
  match hexVal a, hexVal b, hexVal c, hexVal d with
  | some x, some y, some z, some w => some (((x * 16 + y) * 16 + z) * 16 + w)
  | _, _, _, _ => none

/-- The character a one-letter escape stands for. -/
def unescape (c : Char) : Option Char :=
  if c = '"' then some '"'
  else if c = '\\' then some '\\'
  else if c = '/' then some '/'
  else if c = 'b' then some (Char.ofNat 8)
  else if c = 'f' then some (Char.ofNat 12)
  else if c = 'n' then some '\n'
  else if c = 'r' then some '\r'
  else if c = 't' then some '\t'
  else none

/-- The rune U+FFFD that replaces an unpaired surrogate escape. -/
def replacementChar : Char := Char.ofNat 0xFFFD

/-- First half of a surrogate pair. -/
def isHighSurrogate (n : Nat) : Bool := 0xD800 ≤ n && n < 0xDC00

/-- Second half of a surrogate pair. -/
def isLowSurrogate (n : Nat) : Bool := 0xDC00 ≤ n && n < 0xE000

/-- The rune a surrogate pair encodes (`utf16.DecodeRune`). -/
def decodeRune (hi lo : Nat) : Char :=
  Char.ofNat ((hi - 0xD800) * 0x400 + (lo - 0xDC00) + 0x10000)

/-- Puts a character in front of the string read so far. -/
def emit (c : Char) : Option (List Char × List Char) → Option (List Char × List Char)
  | some (s, rest) => some (c :: s, rest)
  | none => none

/-- A pending high surrogate that was not followed by a low one becomes U+FFFD. -/
def flush (pending : Option Nat) (r : Option (List Char × List Char)) :
    Option (List Char × List Char) :=
  match pending with
  | some _ => emit replacementChar r
  | none => r

/-- Reads a string literal after its opening quote and returns the string it
denotes and the text after the closing quote (the scanner's string states
together with `unquote`).  `pending` holds a high surrogate escape whose
partner has not been seen yet.  `none` is a syntax error: no closing quote, a
control character, an unknown escape, or a `\u` without four hex digits. -/
def parseString (pending : Option Nat) : List Char → Option (List Char × List Char)
  | [] => none
  | c :: rest =>
    if c = '"' then flush pending (some ([], rest))
    else if c = '\\' then
      match rest with
      | [] => none
      | e :: rest1 =>
        if e = 'u' then
          match rest1 with
          | h1 :: h2 :: h3 :: h4 :: rest2 =>
            match hex4 h1 h2 h3 h4 with
            | none => none
            | some code =>
              match pending with
              | some hi =>
                if isLowSurrogate code then emit (decodeRune hi code) (parseString none rest2)
                else if isHighSurrogate code then
                  emit replacementChar (parseString (some code) rest2)
                else emit replacementChar (emit (Char.ofNat code) (parseString none rest2))
              | none =>
                if isHighSurrogate code then parseString (some code) rest2
                else if isLowSurrogate code then emit replacementChar (parseString none rest2)
                else emit (Char.ofNat code) (parseString none rest2)
          | _ => none
        else
          match unescape e with
          | none => none
          | some ch => flush pending (emit ch (parseString none rest1))
    else if c.toNat < 32 then none
    else flush pending (emit c (parseString none rest))

/-- Deepest nesting of arrays and objects the scanner accepts. -/
def maxNestingDepth : Nat := 10000

mutual
/-- Reads one JSON value, with leading white space, inside `depth` open arrays
and objects. -/
def parseValue : Nat → Nat → List Char → Parsed JNode
  | 0, _, _ => .outOfFuel
  | fuel + 1, depth, input =>
    match skipSpace input with
    | [] => .syntaxError
    | c :: rest =>
      if c = '{' then
        if maxNestingDepth ≤ depth then .syntaxError
        else
          match skipSpace rest with
          | '}' :: rest1 => .ok (.object []) rest1
          | _ =>
            match parseMembers fuel (depth + 1) rest with
            | .ok ms rest1 => .ok (.object ms) rest1
            | .syntaxError => .syntaxError
            | .outOfFuel => .outOfFuel
      else if c = '[' then
        if maxNestingDepth ≤ depth then .syntaxError
        else
          match skipSpace rest with
          | ']' :: rest1 => .ok (.array []) rest1
          | _ =>
            match parseElements fuel (depth + 1) rest with
            | .ok vs rest1 => .ok (.array vs) rest1
            | .syntaxError => .syntaxError
            | .outOfFuel => .outOfFuel
      else if c = '"' then
        match parseString none rest with
        | some (s, rest1) => .ok (.string s) rest1
        | none => .syntaxError
      else if c = 't' then
        match rest with
        | 'r' :: 'u' :: 'e' :: rest1 => .ok (.bool true) rest1
        | _ => .syntaxError
      else if c = 'f' then
        match rest with
        | 'a' :: 'l' :: 's' :: 'e' :: rest1 => .ok (.bool false) rest1
        | _ => .syntaxError
      else if c = 'n' then
        match rest with
        | 'u' :: 'l' :: 'l' :: rest1 => .ok .null rest1
        | _ => .syntaxError
      else if c = '-' || isDigit c then
        if isNumberLit (spanNumber (c :: rest)).1 then
          .ok (.number (spanNumber (c :: rest)).1) (spanNumber (c :: rest)).2
        else .syntaxError
      else .syntaxError
/-- Reads the elements of a non-empty array up to and including its `]`. -/
def parseElements : Nat → Nat → List Char → Parsed (List JNode)
  | 0, _, _ => .outOfFuel
  | fuel + 1, depth, input =>
    match parseValue fuel depth input with
    | .ok v rest =>
      match skipSpace rest with
      | ',' :: rest1 =>
        match parseElements fuel depth rest1 with
        | .ok vs rest2 => .ok (v :: vs) rest2
        | .syntaxError => .syntaxError
        | .outOfFuel => .outOfFuel
      | ']' :: rest1 => .ok [v] rest1
      | _ => .syntaxError
    | .syntaxError => .syntaxError
    | .outOfFuel => .outOfFuel
/-- Reads the members of a non-empty object up to and including its `}`. -/
def parseMembers : Nat → Nat → List Char → Parsed (List (List Char × JNode))
  | 0, _, _ => .outOfFuel
  | fuel + 1, depth, input =>
    match skipSpace input with
    | '"' :: rest =>
      match parseString none rest with
      | none => .syntaxError
      | some (k, rest1) =>
        match skipSpace rest1 with
        | ':' :: rest2 =>
          match parseValue fuel depth rest2 with
          | .ok v rest3 =>
            match skipSpace rest3 with
            | ',' :: rest4 =>
              match parseMembers fuel depth rest4 with
              | .ok ms rest5 => .ok ((k, v) :: ms) rest5
              | .syntaxError => .syntaxError
              | .outOfFuel => .outOfFuel
            | '}' :: rest4 => .ok [(k, v)] rest4
            | _ => .syntaxError
          | .syntaxError => .syntaxError
          | .outOfFuel => .outOfFuel
        | _ => .syntaxError
    | _ => .syntaxError
end

/-- A whole JSON text: one value, then only white space (`checkValid`). -/
def parseDocument (data : List Char) : Parsed JNode :=
  match parseValue (2 * data.length + 2) 0 data with
  | .ok v rest =>
    match skipSpace rest with
    | [] => .ok v []
    | _ => .syntaxError
  | .syntaxError => .syntaxError
  | .outOfFuel => .outOfFuel

/-! ## Go values -/

/-- The dynamic values `encoding/json` stores in an `interface{}`: `nil`,
`bool`, `float64`, `string`, `[]interface{}` and `map[string]interface{}`.
A map is represented by its entries in increasing key order, each key once;
that is also the order in which `Marshal` writes them. -/
inductive Value (F : Type) where
  | nil
  | bool (b : Bool)
  | float64 (f : F)
  | string (s : List Char)
  | slice (xs : List (Value F))
  | map (m : List (List Char × Value F))

/-- The two `strconv` conversions `encoding/json` uses for `float64`, over a
type `F` of floating-point values.  `ParseFloat` is applied to a literal of
the JSON number grammar and is `none` when the literal is out of range.
`FormatFloat` is the text the encoder writes for a finite value; for NaN and
the infinities it is `error` with the text Go prints for the value. -/
structure Strconv (F : Type) where
  ParseFloat : List Char → Option F
  FormatFloat : F → Except (List Char) (List Char)

/-- Every value `ParseFloat` returns is finite, that is, `FormatFloat` writes it. -/
def Strconv.ParsesFinite {F : Type} (fm : Strconv F) : Prop :=
  ∀ lit f, fm.ParseFloat lit = some f → ∃ out, fm.FormatFloat f = .ok out

/-- What Go documents of these conversions: a parsed value is finite, and the
text written for a finite value is a number literal that parses back to the
same value. -/
structure Strconv.Lawful {F : Type} (fm : Strconv F) : Prop where
  parse_finite : fm.ParsesFinite
  format_lit : ∀ f out, fm.FormatFloat f = .ok out → isNumberLit out = true
  format_parse : ∀ f out, fm.FormatFloat f = .ok out → fm.ParseFloat out = some f

/-- The errors of `encoding/json` that can reach `map_u5c_tx`. -/
inductive JsonError where
  | syntaxError
  | unmarshalTypeError (value : List Char) (type : List Char)
  | unsupportedValueError (str : List Char)

/-- The method `Error()`.  The text of a syntax error depends on the offending
character and on the scanner state, which the model does not keep; it is
represented by the one such text that names neither. -/
def JsonError.Error : JsonError → List Char
  | .syntaxError => "unexpected end of JSON input".toList
  | .unmarshalTypeError value type =>
    "json: cannot unmarshal ".toList ++ value ++ " into Go value of type ".toList ++ type
  | .unsupportedValueError str => "json: unsupported value: ".toList ++ str

/-- Order of Go strings, as `Marshal` sorts map keys. -/
def keyLt : List Char → List Char → Bool
  | _, [] => false
  | [], _ :: _ => true
  | a :: as, b :: bs =>
    if a.toNat < b.toNat then true
    else if a.toNat = b.toNat then keyLt as bs
    else false

/-- The assignment `m[k] = v`. -/
def mapAssign {α : Type} (k : List Char) (v : α) :
    List (List Char × α) → List (List Char × α)
  | [] => [(k, v)]
  | (k1, v1) :: rest =>
    if k = k1 then (k, v) :: rest
    else if keyLt k k1 then (k, v) :: (k1, v1) :: rest
    else (k1, v1) :: mapAssign k v rest

/-- The entry under `k`, if there is one. -/
def mapLookup {α : Type} (k : List Char) : List (List Char × α) → Option α
  | [] => none
  | (k1, v1) :: rest => if k = k1 then some v1 else mapLookup k rest

/-- A fresh map filled with the given entries in order: a later entry with the
same key replaces the earlier one. -/
def makeMap {α : Type} (entries : List (List Char × α)) : List (List Char × α) :=
  entries.foldl (fun acc p => mapAssign p.1 p.2 acc) []

/-- A variable of type `map[string]interface{}`: `none` is the nil map. -/
abbrev GoMap (F : Type) := Option (List (List Char × Value F))

/-- The index expression `m[k]`: the zero value `nil` when the map is nil or
has no entry under `k`. -/
def mapIndex {F : Type} (m : GoMap F) (k : List Char) : Value F :=
  match m with
  | none => .nil
  | some entries =>
    match mapLookup k entries with
    | some v => v
    | none => .nil

/-- The single-value type assertion `x.(interface{})` as the Go language
specification defines it: it yields `x` when `x` holds a value and panics
(`none`) when `x` is the nil interface. -/
def assertInterface {F : Type} (x : Value F) : Option (Value F) :=
  match x with
  | .nil => none
  | v => some v

/-! ## Decoding -/

mutual
/-- Stores a syntax tree in an `interface{}` (`valueInterface`).  The first
number that does not fit a `float64` is the error reported. -/
def convert {F : Type} (fm : Strconv F) : JNode → Except JsonError (Value F)
  | .null => .ok .nil
  | .bool b => .ok (.bool b)
  | .number lit =>
    match fm.ParseFloat lit with
    | some f => .ok (.float64 f)
    | none => .error (.unmarshalTypeError ("number ".toList ++ lit) "float64".toList)
  | .string s => .ok (.string s)
  | .array es =>
    match convertElements fm es with
    | .ok xs => .ok (.slice xs)
    | .error e => .error e
  | .object ms =>
    match convertMembers fm ms with
    | .ok entries => .ok (.map (makeMap entries))
    | .error e => .error e
/-- Converts the elements of an array in order. -/
def convertElements {F : Type} (fm : Strconv F) :
    List JNode → Except JsonError (List (Value F))
  | [] => .ok []
  | e :: es =>
    match convert fm e with
    | .ok x =>
      match convertElements fm es with
      | .ok xs => .ok (x :: xs)
      | .error err => .error err
    | .error err => .error err
/-- Converts the members of an object in order. -/
def convertMembers {F : Type} (fm : Strconv F) :
    List (List Char × JNode) → Except JsonError (List (List Char × Value F))
  | [] => .ok []
  | (k, n) :: ms =>
    match convert fm n with
    | .ok x =>
      match convertMembers fm ms with
      | .ok xs => .ok ((k, x) :: xs)
      | .error err => .error err
    | .error err => .error err
end

/-- The Go name of the type `map[string]interface{}`. -/
def mapTypeName : List Char := "map[string]interface \x7b\x7d".toList

/-- The call `json.Unmarshal(data, &param)` for `var param map[string]interface{}`:
the new value of `param`, or the error returned.  The text is checked as a
whole first; then `null` leaves the map nil, an object fills a fresh map, and
any other value is a type error. -/
def json.Unmarshal {F : Type} (fm : Strconv F) (data : List Char) :
    Except JsonError (GoMap F) :=
  match parseDocument data with
  | .ok node _ =>
    match node with
    | .null => .ok none
    | .object ms =>
      match convertMembers fm ms with
      | .ok entries => .ok (some (makeMap entries))
      | .error e => .error e
    | .array _ => .error (.unmarshalTypeError "array".toList mapTypeName)
    | .bool _ => .error (.unmarshalTypeError "bool".toList mapTypeName)
    | .number _ => .error (.unmarshalTypeError "number".toList mapTypeName)
    | .string _ => .error (.unmarshalTypeError "string".toList mapTypeName)
  | .syntaxError => .error .syntaxError
  | .outOfFuel => .error .syntaxError

/-- The call `json.Unmarshal(data, &x)` for `var x interface{}`, by which a
reader of the plugin's output decodes it. -/
def json.UnmarshalAny {F : Type} (fm : Strconv F) (data : List Char) :
    Except JsonError (Value F) :=
  match parseDocument data with
  | .ok node _ => convert fm node
  | .syntaxError => .error .syntaxError
  | .outOfFuel => .error .syntaxError

/-! ## Encoding -/

/-- Lower-case hexadecimal digit. -/
def hexDigit (n : Nat) : Char :=
  if n < 10 then Char.ofNat (48 + n) else Char.ofNat (87 + n)

/-- How the encoder writes one character of a string, HTML escaping on. -/
def escapeChar (c : Char) : List Char :=
  if c = '"' then ['\\', '"']
  else if c = '\\' then ['\\', '\\']
  else if c.toNat = 8 then ['\\', 'b']
  else if c.toNat = 12 then ['\\', 'f']
  else if c = '\n' then ['\\', 'n']
  else if c = '\r' then ['\\', 'r']
  else if c = '\t' then ['\\', 't']
  else if c.toNat < 32 || c = '<' || c = '>' || c = '&' then
    ['\\', 'u', '0', '0', hexDigit (c.toNat / 16), hexDigit (c.toNat % 16)]
  else if c.toNat = 0x2028 then ['\\', 'u', '2', '0', '2', '8']
  else if c.toNat = 0x2029 then ['\\', 'u', '2', '0', '2', '9']
  else [c]

/-- The characters of a string, escaped. -/
def escape : List Char → List Char
  | [] => []
  | c :: s => escapeChar c ++ escape s

/-- A string literal. -/
def quote (s : List Char) : List Char := '"' :: (escape s ++ ['"'])

mutual
/-- Writes a value (`reflectValue`). -/
def encode {F : Type} (fm : Strconv F) : Value F → Except JsonError (List Char)
  | .nil => .ok "null".toList
  | .bool b => .ok (if b then "true".toList else "false".toList)
  | .float64 f =>
    match fm.FormatFloat f with
    | .ok out => .ok out
    | .error str => .error (.unsupportedValueError str)
  | .string s => .ok (quote s)
  | .slice xs =>
    match encodeElements fm true xs with
    | .ok out => .ok ('[' :: (out ++ [']']))
    | .error e => .error e
  | .map m =>
    match encodeMembers fm true m with
    | .ok out => .ok ('{' :: (out ++ ['}']))
    | .error e => .error e
/-- Writes the elements of a slice, a comma before each but the first. -/
def encodeElements {F : Type} (fm : Strconv F) :
    Bool → List (Value F) → Except JsonError (List Char)
  | _, [] => .ok []
  | first, x :: xs =>
    match encode fm x with
    | .ok out =>
      match encodeElements fm false xs with
      | .ok outs => .ok ((if first then [] else [',']) ++ out ++ outs)
      | .error e => .error e
    | .error e => .error e
/-- Writes the entries of a map, a comma before each but the first. -/
def encodeMembers {F : Type} (fm : Strconv F) :
    Bool → List (List Char × Value F) → Except JsonError (List Char)
  | _, [] => .ok []
  | first, (k, x) :: xs =>
    match encode fm x with
    | .ok out =>
      match encodeMembers fm false xs with
      | .ok outs => .ok ((if first then [] else [',']) ++ quote k ++ ':' :: out ++ outs)
      | .error e => .error e
    | .error e => .error e
end

/-- The call `json.Marshal(v)` for `v` of type `interface{}`. -/
def json.Marshal {F : Type} (fm : Strconv F) (v : Value F) : Except JsonError (List Char) :=
  encode fm v

/-! ## The host and the plugin -/

/-- A write the plugin makes to the host. -/
inductive HostWrite where
  | output (bytes : List Char)
  | error (message : List Char)
  deriving DecidableEq

/-- The host as the plugin sees it during one call: the input buffer, the
output slot, the error slot, and the writes made so far, oldest first. -/
structure Host where
  input : List Char
  output : Option (List Char)
  error : Option (List Char)
  writes : List HostWrite
  deriving DecidableEq

/-- The call `pdk.InputJSON(&param)`, which is `json.Unmarshal(pdk.Input(), &param)`. -/
def pdk.InputJSON {F : Type} (fm : Strconv F) (h : Host) : Except JsonError (GoMap F) :=
  json.Unmarshal fm h.input

/-- The call `pdk.OutputJSON(v)`: marshals `v` and, when that succeeds, makes
the bytes the plugin output.  Returns the host and the error (`none` is nil). -/
def pdk.OutputJSON {F : Type} (fm : Strconv F) (h : Host) (v : Value F) :
    Host × Option JsonError :=
  match json.Marshal fm v with
  | .ok bytes => ({ h with output := some bytes, writes := h.writes ++ [.output bytes] }, none)
  | .error err => (h, some err)

/-- The call `pdk.SetError(err)`, which hands `err.Error()` to the host. -/
def pdk.SetError (h : Host) (err : JsonError) : Host :=
  { h with error := some err.Error, writes := h.writes ++ [.error err.Error] }

/-- How a call of the exported function ends: it returns a status, or the Go
runtime panics.  Either way the host is left in some state. -/
inductive Outcome where
  | returned (status : Int) (h : Host)
  | panicked (h : Host)
  deriving DecidableEq

/-- The key `"fee"` the plugin extracts. -/
def feeKey : List Char := "fee".toList

/-- The exported function `map_u5c_tx` of `main.go`. -/
def map_u5c_tx {F : Type} (fm : Strconv F) (h : Host) : Outcome :=
  match pdk.InputJSON fm h with
  | .error err => .returned 1 (pdk.SetError h err)
  | .ok param =>
    match assertInterface (mapIndex param feeKey) with
    | none => .panicked h
    | some fee =>
      match pdk.OutputJSON fm h fee with
      | (h1, some err) => .returned 1 (pdk.SetError h1 err)
      | (h1, none) => .returned 0 h1

/-- The status returned, if the call returned. -/
def Outcome.status : Outcome → Option Int
  | .returned s _ => some s
  | .panicked _ => none

/-- The host state the call leaves. -/
def Outcome.host : Outcome → Host
  | .returned _ h => h
  | .panicked h => h

/-- The writes a call made, given the host it started from. -/
def Outcome.newWrites (h : Host) (r : Outcome) : List HostWrite :=
  r.host.writes.drop h.writes.length

/-- A host that has just received `input` and has been written to by nobody. -/
def Host.fresh (input : List Char) : Host :=
  { input := input, output := none, error := none, writes := [] }

/-! ## Conversions to evaluate the model with -/

/-- Decimal digit character. -/
def digitChar (d : Nat) : Char := Char.ofNat (48 + d)

/-- The decimal digits of `n`, most significant first (`fuel` bounds their number). -/
def decimalDigits : Nat → Nat → List Char
  | 0, _ => []
  | fuel + 1, n =>
    if n < 10 then [digitChar n] else decimalDigits fuel (n / 10) ++ [digitChar (n % 10)]

/-- Decimal text of a natural number. -/
def formatNat (n : Nat) : List Char := decimalDigits (n + 1) n

/-- The number a run of digits denotes, continuing from `acc`. -/
def digitsValue : List Char → Nat → Option Nat
  | [], acc => some acc
  | c :: rest, acc =>
    if isDigit c then digitsValue rest (acc * 10 + (c.toNat - 48)) else none

/-- Largest natural number below which every natural number is a `float64`. -/
def maxExactNat : Nat := 2 ^ 53

/-- The conversions restricted to the natural numbers up to `2 ^ 53`, each of
which is a `float64` that Go writes as its plain decimal text.  Every other
literal is treated as out of range. -/
def natFloat : Strconv (Fin (maxExactNat + 1)) where
  ParseFloat lit :=
    match digitsValue lit 0 with
    | some n => if h : n < maxExactNat + 1 then some ⟨n, h⟩ else none
    | none => none
  FormatFloat f := .ok (formatNat f.val)

/-- Conversions under which every literal parses to NaN.  Go's `ParseFloat`
never does that; the definition only serves to exercise the branch of
`map_u5c_tx` that handles an encoding error. -/
def nanFloat : Strconv Unit where
  ParseFloat _ := some ()
  FormatFloat _ := .error "NaN".toList

/-! ## Properties of decoded values -/

/-- Bound on the nesting of a syntax tree: `NodeDepth k n` says `n` nests
arrays and objects at most `k` deep. -/
inductive NodeDepth : Nat → JNode → Prop where
  | null (k : Nat) : NodeDepth k .null
  | bool (k : Nat) (b : Bool) : NodeDepth k (.bool b)
  | number (k : Nat) (lit : List Char) : NodeDepth k (.number lit)
  | string (k : Nat) (s : List Char) : NodeDepth k (.string s)
  | array (k : Nat) (es : List JNode) :
    (∀ e ∈ es, NodeDepth k e) → NodeDepth (k + 1) (.array es)
  | object (k : Nat) (ms : List (List Char × JNode)) :
    (∀ p ∈ ms, NodeDepth k p.2) → NodeDepth (k + 1) (.object ms)

/-- Keys strictly increasing. -/
def KeysAscending {α : Type} (m : List (List Char × α)) : Prop :=
  m.Pairwise (fun p q => keyLt p.1 q.1 = true)

/-- What holds of every value the decoder builds: `Decoded fm k v` says that `v`
nests slices and maps at most `k` deep, that each of its numbers is finite,
and that each of its maps lists its keys in increasing order. -/
inductive Decoded {F : Type} (fm : Strconv F) : Nat → Value F → Prop where
  | nil (k : Nat) : Decoded fm k .nil
  | bool (k : Nat) (b : Bool) : Decoded fm k (.bool b)
  | float64 (k : Nat) (f : F) (out : List Char) :
    fm.FormatFloat f = .ok out → Decoded fm k (.float64 f)
  | string (k : Nat) (s : List Char) : Decoded fm k (.string s)
  | slice (k : Nat) (xs : List (Value F)) :
    (∀ x ∈ xs, Decoded fm k x) → Decoded fm (k + 1) (.slice xs)
  | map (k : Nat) (m : List (List Char × Value F)) :
    (∀ p ∈ m, Decoded fm k p.2) → KeysAscending m → Decoded fm (k + 1) (.map m)

/-! ## Predicates on JSON text -/

/-- Every character is a number character. -/
def AllNumberChars (l : List Char) : Prop := ∀ c ∈ l, isNumberChar c = true

/-- The text does not begin with a number character. -/
def NoNumberHead (l : List Char) : Prop := ∀ c t, l = c :: t → isNumberChar c = false

/-- How a value's text can begin. -/
def isValueStart (c : Char) : Bool :=
  c = '{' || c = '[' || c = '"' || c = 't' || c = 'f' || c = 'n' || c = '-' || isDigit c

/-! ## Inputs the statements are evaluated on -/

/-- Scenario A: `{"fee": 1500, "hash": "abc"}`. -/
def scenarioA : List Char := "\x7b\"fee\": 1500, \"hash\": \"abc\"\x7d".toList

/-- Scenario B: `{"hash": "abc"}`, a record without the key `"fee"`. -/
def scenarioB : List Char := "\x7b\"hash\": \"abc\"\x7d".toList

/-- Scenario D: `{"fee": {"amount": 10, "unit": "lovelace"}}`. -/
def scenarioD : List Char :=
  "\x7b\"fee\": \x7b\"amount\": 10, \"unit\": \"lovelace\"\x7d\x7d".toList

/-- Scenario D with the members of the fee in the other order and two more keys. -/
def scenarioD2 : List Char :=
  "\x7b\"slot\": 7, \"fee\": \x7b\"unit\": \"lovelace\", \"amount\": 10\x7d, \"hash\": \"abc\"\x7d".toList

/-- The record `{"fee": null}`. -/
def feeNull : List Char := "\x7b\"fee\": null\x7d".toList

/-- The text `null`. -/
def nullText : List Char := "null".toList

/-- The array `[1, 2]`. -/
def arrayText : List Char := "[1, 2]".toList

/-- The record `{"fee": 1}`. -/
def feeOne : List Char := "\x7b\"fee\": 1\x7d".toList

/-- The record `{"fee": 1, "x": 1e999}`, whose second number exceeds the range
of `float64`. -/
def feeAndHuge : List Char := "\x7b\"fee\": 1, \"x\": 1e999\x7d".toList

/-- The value of the fee in scenario D. -/
def feeD : Value (Fin (maxExactNat + 1)) :=
  .map [("amount".toList, .float64 10), ("unit".toList, .string "lovelace".toList)]

/-- A host holding scenario D whose slots still hold what an earlier call wrote. -/
def usedHost : Host :=
  { input := scenarioD, output := some "1".toList, error := some "old".toList,
    writes := [.error "old".toList, .output "1".toList] }

/-! ## The control flow of `map_u5c_tx` -/

section flow
variable {F : Type} (fm : Strconv F)

theorem assertInterface_eq_none (x : Value F) : assertInterface x = none ↔ x = .nil := by
  cases x <;> simp [assertInterface]

theorem assertInterface_eq_some (x v : Value F) :
    assertInterface x = some v ↔ x = v ∧ v ≠ .nil := by
  cases x <;> simp [assertInterface] <;> (intro hx; subst hx; simp)

theorem map_u5c_tx_of_decode_error (h : Host) (err : JsonError)
    (hdec : json.Unmarshal fm h.input = .error err) :
    map_u5c_tx fm h = .returned 1 (pdk.SetError h err) := by
  simp [map_u5c_tx, pdk.InputJSON, hdec]

theorem map_u5c_tx_of_nil (h : Host) (param : GoMap F)
    (hdec : json.Unmarshal fm h.input = .ok param)
    (hfee : mapIndex param feeKey = .nil) :
    map_u5c_tx fm h = .panicked h := by
  simp [map_u5c_tx, pdk.InputJSON, hdec, hfee, assertInterface]

theorem map_u5c_tx_of_encoded (h : Host) (param : GoMap F) (out : List Char)
    (hdec : json.Unmarshal fm h.input = .ok param)
    (hfee : mapIndex param feeKey ≠ .nil)
    (henc : json.Marshal fm (mapIndex param feeKey) = .ok out) :
    map_u5c_tx fm h =
      .returned 0 { h with output := some out, writes := h.writes ++ [.output out] } := by
  have ha : assertInterface (mapIndex param feeKey) = some (mapIndex param feeKey) :=
    (assertInterface_eq_some _ _).2 ⟨rfl, hfee⟩
  simp [map_u5c_tx, pdk.InputJSON, hdec, ha, pdk.OutputJSON, henc]

theorem map_u5c_tx_of_encode_error (h : Host) (param : GoMap F) (err : JsonError)
    (hdec : json.Unmarshal fm h.input = .ok param)
    (hfee : mapIndex param feeKey ≠ .nil)
    (henc : json.Marshal fm (mapIndex param feeKey) = .error err) :
    map_u5c_tx fm h = .returned 1 (pdk.SetError h err) := by
  have ha : assertInterface (mapIndex param feeKey) = some (mapIndex param feeKey) :=
    (assertInterface_eq_some _ _).2 ⟨rfl, hfee⟩
  simp [map_u5c_tx, pdk.InputJSON, hdec, ha, pdk.OutputJSON, henc]

/-- The four ways a call can go, by what decoding, the lookup and encoding do. -/
theorem map_u5c_tx_cases (h : Host) :
    (∃ err, json.Unmarshal fm h.input = .error err ∧
      map_u5c_tx fm h = .returned 1 (pdk.SetError h err)) ∨
    (∃ param, json.Unmarshal fm h.input = .ok param ∧ mapIndex param feeKey = .nil ∧
      map_u5c_tx fm h = .panicked h) ∨
    (∃ param err, json.Unmarshal fm h.input = .ok param ∧
      mapIndex param feeKey ≠ .nil ∧
      json.Marshal fm (mapIndex param feeKey) = .error err ∧
      map_u5c_tx fm h = .returned 1 (pdk.SetError h err)) ∨
    (∃ param out, json.Unmarshal fm h.input = .ok param ∧
      mapIndex param feeKey ≠ .nil ∧
      json.Marshal fm (mapIndex param feeKey) = .ok out ∧
      map_u5c_tx fm h =
        .returned 0 { h with output := some out, writes := h.writes ++ [.output out] }) := by
  cases hdec : json.Unmarshal fm h.input with
  | error err => exact Or.inl ⟨err, rfl, map_u5c_tx_of_decode_error fm h err hdec⟩
  | ok param =>
    by_cases hfee : mapIndex param feeKey = .nil
    · exact Or.inr (Or.inl ⟨param, rfl, hfee, map_u5c_tx_of_nil fm h param hdec hfee⟩)
    · cases henc : json.Marshal fm (mapIndex param feeKey) with
      | error err =>
        exact Or.inr (Or.inr (Or.inl ⟨param, err, rfl, hfee, henc,
          map_u5c_tx_of_encode_error fm h param err hdec hfee henc⟩))
      | ok out =>
        exact Or.inr (Or.inr (Or.inr ⟨param, out, rfl, hfee, henc,
          map_u5c_tx_of_encoded fm h param out hdec hfee henc⟩))

theorem error_text_ne_nil (err : JsonError) : err.Error ≠ [] := by
  cases err <;> simp [JsonError.Error]

end flow



/-! ## The reader never runs out of fuel -/

theorem skipSpace_length (l : List Char) : (skipSpace l).length ≤ l.length := by
  induction l with
  | nil => simp [skipSpace]
  | cons c rest ih =>
    simp only [skipSpace]
    split
    · simp only [List.length_cons]; omega
    · simp

theorem skipSpace_cons_length {l rest : List Char} {c : Char} (h : skipSpace l = c :: rest) :
    rest.length < l.length := by
  have := skipSpace_length l
  rw [h] at this
  simp only [List.length_cons] at this
  omega

theorem spanNumber_append (l : List Char) : (spanNumber l).1 ++ (spanNumber l).2 = l := by
  induction l with
  | nil => simp [spanNumber]
  | cons c rest ih =>
    simp only [spanNumber]
    split
    · simp [ih]
    · simp

theorem spanNumber_length (l : List Char) : (spanNumber l).2.length ≤ l.length := by
  have h := congrArg List.length (spanNumber_append l)
  simp only [List.length_append] at h
  omega

theorem emit_eq_some {c : Char} {r : Option (List Char × List Char)} {s rest : List Char}
    (h : emit c r = some (s, rest)) : ∃ s1, r = some (s1, rest) ∧ s = c :: s1 := by
  cases r with
  | none => simp [emit] at h
  | some p =>
    obtain ⟨s1, rest1⟩ := p
    simp only [emit, Option.some.injEq, Prod.mk.injEq] at h
    exact ⟨s1, by rw [h.2], h.1.symm⟩

theorem flush_eq_some {p : Option Nat} {r : Option (List Char × List Char)} {s rest : List Char}
    (h : flush p r = some (s, rest)) : ∃ s1, r = some (s1, rest) := by
  cases p with
  | none => exact ⟨s, h⟩
  | some hi =>
    obtain ⟨s1, h1, _⟩ := emit_eq_some h
    exact ⟨s1, h1⟩

theorem parseString_length : ∀ (n : Nat) (l : List Char), l.length ≤ n →
    ∀ (p : Option Nat) (s rest : List Char), parseString p l = some (s, rest) →
      rest.length ≤ l.length := by
  intro n
  induction n with
  | zero =>
    intro l hl p s rest h
    cases l with
    | nil => simp [parseString] at h
    | cons c t => simp at hl
  | succ n ih =>
    intro l hl p s rest h
    cases l with
    | nil => simp [parseString] at h
    | cons c t =>
      simp only [List.length_cons] at hl ⊢
      have hrec : ∀ (t1 : List Char), t1.length ≤ t.length → ∀ (q : Option Nat) (s1 : List Char),
          parseString q t1 = some (s1, rest) → rest.length ≤ t.length + 1 := by
        intro t1 ht1 q s1 h1
        have := ih t1 (by omega) q s1 rest h1
        omega
      rw [parseString.eq_def] at h
      simp only at h
      split at h
      · obtain ⟨s1, h1⟩ := flush_eq_some h
        simp only [Option.some.injEq, Prod.mk.injEq] at h1
        rw [← h1.2]; omega
      · split at h
        · split at h
          · simp at h
          · rename_i e rest1
            split at h
            · split at h
              · rename_i h1 h2 h3 h4 rest2
                have hlen : rest2.length ≤ (e :: h1 :: h2 :: h3 :: h4 :: rest2).length := by
                  simp only [List.length_cons]; omega
                split at h
                · simp at h
                · split at h
                  · split at h
                    · obtain ⟨s1, h1, _⟩ := emit_eq_some h
                      exact hrec _ hlen _ _ h1
                    · split at h
                      · obtain ⟨s1, h1, _⟩ := emit_eq_some h
                        exact hrec _ hlen _ _ h1
                      · obtain ⟨s1, h1, _⟩ := emit_eq_some h
                        obtain ⟨s2, h2, _⟩ := emit_eq_some h1
                        exact hrec _ hlen _ _ h2
                  · split at h
                    · exact hrec _ hlen _ _ h
                    · split at h
                      · obtain ⟨s1, h1, _⟩ := emit_eq_some h
                        exact hrec _ hlen _ _ h1
                      · obtain ⟨s1, h1, _⟩ := emit_eq_some h
                        exact hrec _ hlen _ _ h1
              · simp at h
            · split at h
              · simp at h
              · obtain ⟨s1, h1⟩ := flush_eq_some h
                obtain ⟨s2, h2, _⟩ := emit_eq_some h1
                exact hrec _ (by simp) _ _ h2
        · split at h
          · simp at h
          · obtain ⟨s1, h1⟩ := flush_eq_some h
            obtain ⟨s2, h2, _⟩ := emit_eq_some h1
            exact hrec _ (le_refl _) _ _ h2



theorem parseString_length_le {p : Option Nat} {l s rest : List Char}
    (h : parseString p l = some (s, rest)) : rest.length ≤ l.length :=
  parseString_length l.length l (le_refl _) p s rest h

theorem parse_length (fuel : Nat) :
    (∀ d input n rest, parseValue fuel d input = .ok n rest → rest.length ≤ input.length) ∧
    (∀ d input ns rest, parseElements fuel d input = .ok ns rest →
      rest.length ≤ input.length) ∧
    (∀ d input ms rest, parseMembers fuel d input = .ok ms rest →
      rest.length ≤ input.length) := by
  induction fuel with
  | zero => simp [parseValue, parseElements, parseMembers]
  | succ f ih =>
    obtain ⟨ihv, ihe, ihm⟩ := ih
    refine ⟨?_, ?_, ?_⟩
    · intro d input n rest h
      simp only [parseValue] at h
      split at h
      · simp at h
      · rename_i c rest0 hsk
        have hlt := skipSpace_cons_length hsk
        split at h
        · split at h
          · simp at h
          · split at h
            · rename_i rest1 hsk1
              simp only [Parsed.ok.injEq] at h
              have := skipSpace_cons_length hsk1
              rw [← h.2]; omega
            · split at h
              · rename_i ms rest1 hm
                simp only [Parsed.ok.injEq] at h
                have := ihm _ _ _ _ hm
                rw [← h.2]; omega
              · simp at h
              · simp at h
        · split at h
          · split at h
            · simp at h
            · split at h
              · rename_i rest1 hsk1
                simp only [Parsed.ok.injEq] at h
                have := skipSpace_cons_length hsk1
                rw [← h.2]; omega
              · split at h
                · rename_i ms rest1 hm
                  simp only [Parsed.ok.injEq] at h
                  have := ihe _ _ _ _ hm
                  rw [← h.2]; omega
                · simp at h
                · simp at h
          · split at h
            · split at h
              · rename_i s rest1 hs
                simp only [Parsed.ok.injEq] at h
                have := parseString_length_le hs
                rw [← h.2]; omega
              · simp at h
            · split at h
              · split at h
                · simp only [Parsed.ok.injEq] at h
                  rw [← h.2]; simp only [List.length_cons] at hlt; omega
                · simp at h
              · split at h
                · split at h
                  · simp only [Parsed.ok.injEq] at h
                    rw [← h.2]; simp only [List.length_cons] at hlt; omega
                  · simp at h
                · split at h
                  · split at h
                    · simp only [Parsed.ok.injEq] at h
                      rw [← h.2]; simp only [List.length_cons] at hlt; omega
                    · simp at h
                  · split at h
                    · split at h
                      · simp only [Parsed.ok.injEq] at h
                        have := spanNumber_length (c :: rest0)
                        simp only [List.length_cons] at this
                        rw [← h.2]; omega
                      · simp at h
                    · simp at h
    · intro d input ns rest h
      simp only [parseElements] at h
      split at h
      · rename_i v rest0 hv
        have h0 := ihv _ _ _ _ hv
        split at h
        · rename_i rest1 hsk
          have h1 := skipSpace_cons_length hsk
          split at h
          · rename_i vs rest2 hvs
            simp only [Parsed.ok.injEq] at h
            have := ihe _ _ _ _ hvs
            rw [← h.2]; omega
          · simp at h
          · simp at h
        · rename_i rest1 hsk
          have h1 := skipSpace_cons_length hsk
          simp only [Parsed.ok.injEq] at h
          rw [← h.2]; omega
        · simp at h
      · simp at h
      · simp at h
    · intro d input ms rest h
      simp only [parseMembers] at h
      split at h
      · rename_i rest0 hsk
        have h0 := skipSpace_cons_length hsk
        split at h
        · simp at h
        · rename_i k rest1 hs
          have h1 := parseString_length_le hs
          split at h
          · rename_i rest2 hsk2
            have h2 := skipSpace_cons_length hsk2
            split at h
            · rename_i v rest3 hv
              have h3 := ihv _ _ _ _ hv
              split at h
              · rename_i rest4 hsk4
                have h4 := skipSpace_cons_length hsk4
                split at h
                · rename_i ms1 rest5 hms
                  simp only [Parsed.ok.injEq] at h
                  have := ihm _ _ _ _ hms
                  rw [← h.2]; omega
                · simp at h
                · simp at h
              · rename_i rest4 hsk4
                have h4 := skipSpace_cons_length hsk4
                simp only [Parsed.ok.injEq] at h
                rw [← h.2]; omega
              · simp at h
            · simp at h
            · simp at h
          · simp at h
      · simp at h



theorem parse_fuel (fuel : Nat) :
    (∀ d input, 2 * input.length < fuel → parseValue fuel d input ≠ .outOfFuel) ∧
    (∀ d input, 2 * input.length + 1 < fuel → parseElements fuel d input ≠ .outOfFuel) ∧
    (∀ d input, 2 * input.length + 1 < fuel → parseMembers fuel d input ≠ .outOfFuel) := by
  induction fuel with
  | zero => simp
  | succ f ih =>
    obtain ⟨ihv, ihe, ihm⟩ := ih
    refine ⟨?_, ?_, ?_⟩
    · intro d input hf h
      simp only [parseValue] at h
      split at h
      · simp at h
      · rename_i c rest0 hsk
        have hlt := skipSpace_cons_length hsk
        split at h
        · split at h
          · simp at h
          · split at h
            · simp at h
            · split at h
              · simp at h
              · simp at h
              · rename_i hm
                exact ihm _ _ (by omega) hm
        · split at h
          · split at h
            · simp at h
            · split at h
              · simp at h
              · split at h
                · simp at h
                · simp at h
                · rename_i hm
                  exact ihe _ _ (by omega) hm
          · split at h
            · split at h <;> simp at h
            · split at h
              · split at h <;> simp at h
              · split at h
                · split at h <;> simp at h
                · split at h
                  · split at h <;> simp at h
                  · split at h
                    · split at h <;> simp at h
                    · simp at h
    · intro d input hf h
      simp only [parseElements] at h
      split at h
      · rename_i v rest0 hv
        have h0 := (parse_length f).1 _ _ _ _ hv
        split at h
        · rename_i rest1 hsk
          have h1 := skipSpace_cons_length hsk
          split at h
          · simp at h
          · simp at h
          · rename_i hvs
            exact ihe _ _ (by omega) hvs
        · simp at h
        · simp at h
      · simp at h
      · rename_i hv
        exact ihv _ _ (by omega) hv
    · intro d input hf h
      simp only [parseMembers] at h
      split at h
      · rename_i rest0 hsk
        have h0 := skipSpace_cons_length hsk
        split at h
        · simp at h
        · rename_i k rest1 hs
          have h1 := parseString_length_le hs
          split at h
          · rename_i rest2 hsk2
            have h2 := skipSpace_cons_length hsk2
            split at h
            · rename_i v rest3 hv
              have h3 := (parse_length f).1 _ _ _ _ hv
              split at h
              · rename_i rest4 hsk4
                have h4 := skipSpace_cons_length hsk4
                split at h
                · simp at h
                · simp at h
                · rename_i hms
                  exact ihm _ _ (by omega) hms
              · simp at h
              · simp at h
            · simp at h
            · rename_i hv
              exact ihv _ _ (by omega) hv
          · simp at h
      · simp at h

/-- The budget `parseDocument` gives the reader is enough for every text. -/
theorem parseDocument_ne_outOfFuel (data : List Char) : parseDocument data ≠ .outOfFuel := by
  intro h
  simp only [parseDocument] at h
  split at h
  · split at h <;> simp at h
  · simp at h
  · rename_i hv
    exact (parse_fuel _).1 _ _ (by omega) hv

/-! ## Strings: what the encoder writes, the reader reads back -/

theorem hexVal_hexDigit : ∀ k, k < 16 → hexVal (hexDigit k) = some k := by
  decide

theorem hex4_byte (n : Nat) (hn : n < 256) :
    hex4 '0' '0' (hexDigit (n / 16)) (hexDigit (n % 16)) = some n := by
  have h1 := hexVal_hexDigit (n / 16) (by omega)
  have h2 := hexVal_hexDigit (n % 16) (by omega)
  have h0 : hexVal '0' = some 0 := by decide
  simp only [hex4, h0, h1, h2, Option.some.injEq]
  omega

theorem parseString_unicode (a b c d : Char) (code : Nat) (tail : List Char)
    (hhex : hex4 a b c d = some code) (hhi : isHighSurrogate code = false)
    (hlo : isLowSurrogate code = false) :
    parseString none ('\\' :: 'u' :: a :: b :: c :: d :: tail) =
      emit (Char.ofNat code) (parseString none tail) := by
  rw [parseString.eq_def]
  simp [hhex, hhi, hlo]

theorem parseString_short (e ch : Char) (tail : List Char) (he : e ≠ 'u')
    (hun : unescape e = some ch) :
    parseString none ('\\' :: e :: tail) = emit ch (parseString none tail) := by
  rw [parseString.eq_def]
  simp [he, hun, flush]

theorem parseString_plain (c : Char) (tail : List Char) (hq : c ≠ '"') (hb : c ≠ '\\')
    (hc : ¬ c.toNat < 32) :
    parseString none (c :: tail) = emit c (parseString none tail) := by
  rw [parseString.eq_def]
  simp [hq, hb, hc, flush]

theorem char_eq_of_toNat {c : Char} {n : Nat} (h : c.toNat = n) : Char.ofNat n = c := by
  rw [← h]; exact Char.ofNat_toNat c

theorem parseString_escapeChar (c : Char) (tail : List Char) :
    parseString none (escapeChar c ++ tail) = emit c (parseString none tail) := by
  unfold escapeChar
  split
  · rename_i h; subst h
    exact parseString_short '"' '"' tail (by decide) (by decide)
  split
  · rename_i h; subst h
    exact parseString_short '\\' '\\' tail (by decide) (by decide)
  split
  · rename_i h
    have := parseString_short 'b' (Char.ofNat 8) tail (by decide) (by decide)
    rw [char_eq_of_toNat h] at this
    exact this
  split
  · rename_i h
    have := parseString_short 'f' (Char.ofNat 12) tail (by decide) (by decide)
    rw [char_eq_of_toNat h] at this
    exact this
  split
  · rename_i h; subst h
    exact parseString_short 'n' '\n' tail (by decide) (by decide)
  split
  · rename_i h; subst h
    exact parseString_short 'r' '\r' tail (by decide) (by decide)
  split
  · rename_i h; subst h
    exact parseString_short 't' '\t' tail (by decide) (by decide)
  split
  · rename_i h
    have hn : c.toNat < 256 := by
      simp only [Bool.or_eq_true, decide_eq_true_eq] at h
      rcases h with ((h | h) | h) | h
      · omega
      · subst h; decide
      · subst h; decide
      · subst h; decide
    have := parseString_unicode '0' '0' (hexDigit (c.toNat / 16)) (hexDigit (c.toNat % 16))
      c.toNat tail (hex4_byte _ hn)
      (by simp only [isHighSurrogate, Bool.and_eq_false_imp, decide_eq_true_eq, decide_eq_false_iff_not]; omega)
      (by simp only [isLowSurrogate, Bool.and_eq_false_imp, decide_eq_true_eq, decide_eq_false_iff_not]; omega)
    rw [Char.ofNat_toNat] at this
    exact this
  split
  · rename_i h
    have := parseString_unicode '2' '0' '2' '8' 0x2028 tail (by decide) (by decide) (by decide)
    rw [char_eq_of_toNat h] at this
    exact this
  split
  · rename_i h
    have := parseString_unicode '2' '0' '2' '9' 0x2029 tail (by decide) (by decide) (by decide)
    rw [char_eq_of_toNat h] at this
    exact this
  · rename_i h1 h2 _ _ _ _ _ h8 _ _
    simp only [Bool.or_eq_true, decide_eq_true_eq, not_or] at h8
    exact parseString_plain c tail h1 h2 (by omega)

theorem parseString_escape (s rest : List Char) :
    parseString none (escape s ++ '"' :: rest) = some (s, rest) := by
  induction s with
  | nil =>
    rw [parseString.eq_def]
    simp [escape, flush]
  | cons c s ih =>
    simp only [escape, List.append_assoc]
    rw [parseString_escapeChar, ih]
    rfl

theorem parseString_quote (s rest : List Char) :
    parseString none (escape s ++ ['"'] ++ rest) = some (s, rest) := by
  simpa using parseString_escape s rest

/-! ## Maps -/

theorem char_toNat_inj {a b : Char} (h : a.toNat = b.toNat) : a = b := by
  rw [← Char.ofNat_toNat a, ← Char.ofNat_toNat b, h]

theorem keyLt_irrefl (a : List Char) : keyLt a a = false := by
  induction a with
  | nil => rfl
  | cons c t ih => simp [keyLt, ih]

theorem keyLt_trans : ∀ (a b c : List Char), keyLt a b = true → keyLt b c = true →
    keyLt a c = true := by
  intro a
  induction a with
  | nil =>
    intro b c hab hbc
    cases b with
    | nil => simp [keyLt] at hab
    | cons y bs =>
      cases c with
      | nil => simp [keyLt] at hbc
      | cons z cs => simp [keyLt]
  | cons x as ih =>
    intro b c hab hbc
    cases b with
    | nil => simp [keyLt] at hab
    | cons y bs =>
      cases c with
      | nil => simp [keyLt] at hbc
      | cons z cs =>
        simp only [keyLt] at hab hbc ⊢
        split at hab
        · split at hbc
          · rw [if_pos (by omega)]
          · split at hbc
            · rw [if_pos (by omega)]
            · simp at hbc
        · split at hab
          · split at hbc
            · rw [if_pos (by omega)]
            · split at hbc
              · rw [if_neg (by omega), if_pos (by omega)]
                exact ih _ _ hab hbc
              · simp at hbc
          · simp at hab

theorem keyLt_total : ∀ (a b : List Char), a ≠ b → keyLt a b = false → keyLt b a = true := by
  intro a
  induction a with
  | nil =>
    intro b hne hab
    cases b with
    | nil => exact absurd rfl hne
    | cons y bs => simp [keyLt] at hab
  | cons x as ih =>
    intro b hne hab
    cases b with
    | nil => simp [keyLt]
    | cons y bs =>
      simp only [keyLt] at hab ⊢
      split at hab
      · simp at hab
      · split at hab
        · rename_i h1 h2
          rw [if_neg (by omega), if_pos h2.symm]
          have hxy : x = y := char_toNat_inj h2
          subst hxy
          exact ih bs (fun h => hne (by rw [h])) hab
        · rw [if_pos (by omega)]

theorem keyLt_ne {a b : List Char} (h : keyLt a b = true) : a ≠ b := by
  intro hab
  subst hab
  rw [keyLt_irrefl] at h
  exact Bool.false_ne_true h

theorem keyLt_asymm {a b : List Char} (h : keyLt a b = true) : keyLt b a = false := by
  cases hba : keyLt b a with
  | false => rfl
  | true =>
    have := keyLt_trans a b a h hba
    rw [keyLt_irrefl] at this
    exact absurd this Bool.false_ne_true

section maps
variable {α : Type}

theorem mem_mapAssign (k : List Char) (v : α) (m : List (List Char × α)) :
    ∀ p ∈ mapAssign k v m, p = (k, v) ∨ p ∈ m := by
  induction m with
  | nil => intro p hp; simp [mapAssign] at hp; exact Or.inl hp
  | cons q rest ih =>
    obtain ⟨k1, v1⟩ := q
    intro p hp
    simp only [mapAssign] at hp
    split at hp
    · simp only [List.mem_cons] at hp ⊢
      rcases hp with hp | hp
      · exact Or.inl hp
      · exact Or.inr (Or.inr hp)
    · split at hp
      · simp only [List.mem_cons] at hp ⊢
        rcases hp with hp | hp | hp
        · exact Or.inl hp
        · exact Or.inr (Or.inl hp)
        · exact Or.inr (Or.inr hp)
      · simp only [List.mem_cons] at hp ⊢
        rcases hp with hp | hp
        · exact Or.inr (Or.inl hp)
        · rcases ih p hp with h | h
          · exact Or.inl h
          · exact Or.inr (Or.inr h)

theorem mapAssign_ascending (k : List Char) (v : α) (m : List (List Char × α))
    (hm : KeysAscending m) : KeysAscending (mapAssign k v m) := by
  induction m with
  | nil => simp [mapAssign, KeysAscending]
  | cons q rest ih =>
    obtain ⟨k1, v1⟩ := q
    simp only [KeysAscending, List.pairwise_cons] at hm
    simp only [mapAssign]
    split
    · rename_i hk
      subst hk
      simp only [KeysAscending, List.pairwise_cons]
      exact hm
    · split
      · rename_i hne hlt
        simp only [KeysAscending, List.pairwise_cons, List.mem_cons]
        refine ⟨?_, hm⟩
        intro p hp
        rcases hp with hp | hp
        · rw [hp]; exact hlt
        · exact keyLt_trans _ _ _ hlt (hm.1 p hp)
      · rename_i hne hlt
        simp only [KeysAscending, List.pairwise_cons]
        refine ⟨?_, ih hm.2⟩
        intro p hp
        rcases mem_mapAssign k v rest p hp with h | h
        · rw [h]
          exact keyLt_total k k1 hne (by simpa using hlt)
        · exact hm.1 p h

theorem mapAssign_last (k : List Char) (v : α) (m : List (List Char × α))
    (hm : ∀ p ∈ m, keyLt p.1 k = true) : mapAssign k v m = m ++ [(k, v)] := by
  induction m with
  | nil => rfl
  | cons q rest ih =>
    obtain ⟨k1, v1⟩ := q
    have h1 : keyLt k1 k = true := hm (k1, v1) (List.mem_cons_self _ _)
    simp only [mapAssign]
    rw [if_neg (fun h => keyLt_ne h1 h.symm), if_neg (by rw [keyLt_asymm h1]; simp)]
    rw [ih (fun p hp => hm p (List.mem_cons_of_mem _ hp))]
    rfl

theorem foldl_mapAssign_ascending (entries acc : List (List Char × α))
    (hacc : KeysAscending acc) :
    KeysAscending (entries.foldl (fun acc p => mapAssign p.1 p.2 acc) acc) := by
  induction entries generalizing acc with
  | nil => exact hacc
  | cons p rest ih => exact ih _ (mapAssign_ascending _ _ _ hacc)

theorem makeMap_ascending (entries : List (List Char × α)) : KeysAscending (makeMap entries) :=
  foldl_mapAssign_ascending entries [] (by simp [KeysAscending])

theorem mem_foldl_mapAssign (entries acc : List (List Char × α)) :
    ∀ p ∈ entries.foldl (fun acc p => mapAssign p.1 p.2 acc) acc, p ∈ acc ∨ p ∈ entries := by
  induction entries generalizing acc with
  | nil => intro p hp; exact Or.inl hp
  | cons q rest ih =>
    intro p hp
    rcases ih _ p hp with h | h
    · rcases mem_mapAssign _ _ _ p h with h1 | h1
      · exact Or.inr (by rw [h1]; exact List.mem_cons_self _ _)
      · exact Or.inl h1
    · exact Or.inr (List.mem_cons_of_mem _ h)

theorem mem_makeMap (entries : List (List Char × α)) :
    ∀ p ∈ makeMap entries, p ∈ entries := by
  intro p hp
  rcases mem_foldl_mapAssign entries [] p hp with h | h
  · simp at h
  · exact h

theorem foldl_mapAssign_sorted (entries acc : List (List Char × α))
    (h : KeysAscending (acc ++ entries)) :
    entries.foldl (fun acc p => mapAssign p.1 p.2 acc) acc = acc ++ entries := by
  induction entries generalizing acc with
  | nil => simp
  | cons p rest ih =>
    have hp : ∀ q ∈ acc, keyLt q.1 p.1 = true := by
      intro q hq
      simp only [KeysAscending, List.pairwise_append] at h
      exact h.2.2 q hq p (List.mem_cons_self _ _)
    simp only [List.foldl_cons]
    rw [mapAssign_last _ _ _ hp, ih]
    · simp
    · simpa using h

theorem makeMap_of_ascending (m : List (List Char × α)) (h : KeysAscending m) :
    makeMap m = m := by
  have := foldl_mapAssign_sorted m [] (by simpa using h)
  simpa [makeMap] using this

theorem mapLookup_mem (k : List Char) (m : List (List Char × α)) (v : α)
    (h : mapLookup k m = some v) : (k, v) ∈ m := by
  induction m with
  | nil => simp [mapLookup] at h
  | cons q rest ih =>
    obtain ⟨k1, v1⟩ := q
    simp only [mapLookup] at h
    split at h
    · rename_i hk
      simp only [Option.some.injEq] at h
      rw [hk, h]
      exact List.mem_cons_self _ _
    · exact List.mem_cons_of_mem _ (ih h)

end maps

/-! ## Number literals -/

theorem isNumberChar_of_isDigit {c : Char} (h : isDigit c = true) : isNumberChar c = true := by
  simp [isNumberChar, h]

theorem allNumberChars_cons {c : Char} {l : List Char} (hc : isNumberChar c = true)
    (hl : AllNumberChars l) : AllNumberChars (c :: l) := by
  intro x hx
  simp only [List.mem_cons] at hx
  rcases hx with hx | hx
  · rw [hx]; exact hc
  · exact hl x hx

theorem allNumberChars_dropDigits (l : List Char) (h : AllNumberChars (dropDigits l)) :
    AllNumberChars l := by
  induction l with
  | nil => exact h
  | cons c rest ih =>
    simp only [dropDigits] at h
    split at h
    · rename_i hc
      exact allNumberChars_cons (isNumberChar_of_isDigit hc) (ih h)
    · exact h

theorem allNumberChars_digits1 {l t : List Char} (h : digits1 l = some t)
    (ht : AllNumberChars t) : AllNumberChars l := by
  cases l with
  | nil => simp [digits1] at h
  | cons c rest =>
    simp only [digits1] at h
    split at h
    · rename_i hc
      simp only [Option.some.injEq] at h
      subst h
      exact allNumberChars_cons (isNumberChar_of_isDigit hc) (allNumberChars_dropDigits _ ht)
    · simp at h

theorem allNumberChars_nil : AllNumberChars [] := by
  intro c hc
  simp at hc

theorem allNumberChars_stripSign (l : List Char) (h : AllNumberChars (stripSign l)) :
    AllNumberChars l := by
  cases l with
  | nil => exact h
  | cons c rest =>
    simp only [stripSign] at h
    split at h
    · rename_i hc
      refine allNumberChars_cons ?_ h
      simp only [Bool.or_eq_true, decide_eq_true_eq] at hc
      rcases hc with hc | hc <;> (subst hc; decide)
    · exact h

theorem allNumberChars_isExponent (l : List Char) (h : isExponent l = true) :
    AllNumberChars l := by
  cases l with
  | nil => exact allNumberChars_nil
  | cons c rest =>
    simp only [isExponent] at h
    split at h
    · rename_i hc
      split at h
      · rename_i hd
        refine allNumberChars_cons ?_
          (allNumberChars_stripSign _ (allNumberChars_digits1 hd allNumberChars_nil))
        simp only [Bool.or_eq_true, decide_eq_true_eq] at hc
        rcases hc with hc | hc <;> (subst hc; decide)
      · simp at h
    · simp at h

theorem allNumberChars_isFraction (l : List Char) (h : isFraction l = true) :
    AllNumberChars l := by
  cases l with
  | nil => exact allNumberChars_nil
  | cons c rest =>
    simp only [isFraction] at h
    split at h
    · rename_i hc
      split at h
      · rename_i tail hd
        subst hc
        exact allNumberChars_cons (by decide)
          (allNumberChars_digits1 hd (allNumberChars_isExponent _ h))
      · simp at h
    · exact allNumberChars_isExponent _ h

theorem allNumberChars_isUnsigned (l : List Char) (h : isUnsigned l = true) :
    AllNumberChars l := by
  cases l with
  | nil => simp [isUnsigned] at h
  | cons c rest =>
    simp only [isUnsigned] at h
    split at h
    · rename_i hc
      subst hc
      exact allNumberChars_cons (by decide) (allNumberChars_isFraction _ h)
    · split at h
      · rename_i hc
        exact allNumberChars_cons (isNumberChar_of_isDigit hc)
          (allNumberChars_dropDigits _ (allNumberChars_isFraction _ h))
      · simp at h

theorem allNumberChars_of_isNumberLit (l : List Char) (h : isNumberLit l = true) :
    AllNumberChars l := by
  cases l with
  | nil => simp [isNumberLit] at h
  | cons c rest =>
    simp only [isNumberLit] at h
    split at h
    · rename_i hc
      subst hc
      exact allNumberChars_cons (by decide) (allNumberChars_isUnsigned _ h)
    · exact allNumberChars_isUnsigned _ h

theorem isUnsigned_head {c : Char} {rest : List Char} (h : isUnsigned (c :: rest) = true) :
    isDigit c = true := by
  simp only [isUnsigned] at h
  split at h
  · rename_i hc; subst hc; decide
  · split at h
    · rename_i hc; exact hc
    · simp at h

theorem isNumberLit_head (l : List Char) (h : isNumberLit l = true) :
    ∃ c rest, l = c :: rest ∧ (c = '-' ∨ isDigit c = true) := by
  cases l with
  | nil => simp [isNumberLit] at h
  | cons c rest =>
    refine ⟨c, rest, rfl, ?_⟩
    simp only [isNumberLit] at h
    split at h
    · rename_i hc; exact Or.inl hc
    · exact Or.inr (isUnsigned_head h)

theorem spanNumber_literal (lit rest : List Char) (hl : AllNumberChars lit)
    (hr : NoNumberHead rest) : spanNumber (lit ++ rest) = (lit, rest) := by
  induction lit with
  | nil =>
    cases rest with
    | nil => rfl
    | cons c t =>
      simp only [List.nil_append, spanNumber]
      rw [if_neg (by rw [hr c t rfl]; simp)]
  | cons c t ih =>
    have hc : isNumberChar c = true := hl c (List.mem_cons_self _ _)
    have ht : AllNumberChars t := fun x hx => hl x (List.mem_cons_of_mem _ hx)
    have h1 := ih ht
    simp [spanNumber, hc, h1]

theorem isDigit_bounds {c : Char} (h : isDigit c = true) : 48 ≤ c.toNat ∧ c.toNat ≤ 57 := by
  simpa [isDigit] using h

theorem not_isSpace_of_start {c : Char} (h : isValueStart c = true) : isSpace c = false := by
  simp only [isValueStart, Bool.or_eq_true, decide_eq_true_eq] at h
  rcases h with ((((((h | h) | h) | h) | h) | h) | h) | h
  any_goals (subst h; decide)
  have := isDigit_bounds h
  simp only [isSpace, Bool.or_eq_false_iff, decide_eq_false_iff_not]
  refine ⟨⟨⟨?_, ?_⟩, ?_⟩, ?_⟩ <;> (intro hc; subst hc; revert this; decide)

theorem skipSpace_of_not_space {c : Char} (l : List Char) (h : isSpace c = false) :
    skipSpace (c :: l) = c :: l := by
  simp [skipSpace, h]

theorem digit_or_minus_cases {c : Char} (h : c = '-' ∨ isDigit c = true) :
    c ≠ '{' ∧ c ≠ '[' ∧ c ≠ '"' ∧ c ≠ 't' ∧ c ≠ 'f' ∧ c ≠ 'n' ∧ isSpace c = false ∧
      (c = '-' || isDigit c) = true := by
  rcases h with h | h
  · subst h; decide
  · have hb := isDigit_bounds h
    refine ⟨?_, ?_, ?_, ?_, ?_, ?_, ?_, by simp [h]⟩
    any_goals (intro hc; subst hc; revert hb; decide)
    exact not_isSpace_of_start (by simp [isValueStart, h])

/-! ## One step of the reader -/

theorem isValueStart_ne {c : Char} (h : isValueStart c = true) :
    c ≠ ']' ∧ c ≠ '}' ∧ isSpace c = false := by
  refine ⟨?_, ?_, not_isSpace_of_start h⟩ <;> (intro hc; subst hc; revert h; decide)

theorem noNumberHead_nil : NoNumberHead [] := by
  intro c t h
  simp at h

theorem noNumberHead_cons {c : Char} (l : List Char) (h : isNumberChar c = false) :
    NoNumberHead (c :: l) := by
  intro x t hx
  simp only [List.cons.injEq] at hx
  rw [← hx.1]; exact h

theorem parseValue_null (f d : Nat) (rest : List Char) :
    parseValue (f + 1) d ('n' :: 'u' :: 'l' :: 'l' :: rest) = .ok .null rest := by
  simp [parseValue, skipSpace, isSpace]

theorem parseValue_true (f d : Nat) (rest : List Char) :
    parseValue (f + 1) d ('t' :: 'r' :: 'u' :: 'e' :: rest) = .ok (.bool true) rest := by
  simp [parseValue, skipSpace, isSpace]

theorem parseValue_false (f d : Nat) (rest : List Char) :
    parseValue (f + 1) d ('f' :: 'a' :: 'l' :: 's' :: 'e' :: rest) = .ok (.bool false) rest := by
  simp [parseValue, skipSpace, isSpace]

theorem parseValue_string (f d : Nat) (t s rest : List Char)
    (h : parseString none t = some (s, rest)) :
    parseValue (f + 1) d ('"' :: t) = .ok (.string s) rest := by
  simp [parseValue, skipSpace, isSpace, h]

theorem parseValue_number (f d : Nat) (lit rest : List Char) (hlit : isNumberLit lit = true)
    (hr : NoNumberHead rest) :
    parseValue (f + 1) d (lit ++ rest) = .ok (.number lit) rest := by
  obtain ⟨c, t, hct, hc⟩ := isNumberLit_head lit hlit
  obtain ⟨h1, h2, h3, h4, h5, h6, h7, h8⟩ := digit_or_minus_cases hc
  have hspan := spanNumber_literal lit rest (allNumberChars_of_isNumberLit lit hlit) hr
  subst hct
  rw [List.cons_append] at hspan ⊢
  simp only [parseValue, skipSpace_of_not_space _ h7]
  simp [h1, h2, h3, h4, h5, h6, h8, hspan, hlit]

theorem parseValue_array_nil (f d : Nat) (rest : List Char) (hd : d < maxNestingDepth) :
    parseValue (f + 1) d ('[' :: ']' :: rest) = .ok (.array []) rest := by
  simp [parseValue, skipSpace, isSpace, Nat.not_le.2 hd]

theorem parseValue_object_nil (f d : Nat) (rest : List Char) (hd : d < maxNestingDepth) :
    parseValue (f + 1) d ('{' :: '}' :: rest) = .ok (.object []) rest := by
  simp [parseValue, skipSpace, isSpace, Nat.not_le.2 hd]

theorem parseValue_array (f d : Nat) (c : Char) (t rest : List Char) (ns : List JNode)
    (hd : d < maxNestingDepth) (hc : isValueStart c = true)
    (h : parseElements f (d + 1) (c :: t) = .ok ns rest) :
    parseValue (f + 1) d ('[' :: c :: t) = .ok (.array ns) rest := by
  obtain ⟨h1, h2, h3⟩ := isValueStart_ne hc
  have h0 : isSpace '[' = false := by decide
  simp [parseValue, skipSpace, h0, h3, Nat.not_le.2 hd, h1, h]

theorem parseValue_object (f d : Nat) (t rest : List Char) (ns : List (List Char × JNode))
    (hd : d < maxNestingDepth)
    (h : parseMembers f (d + 1) ('"' :: t) = .ok ns rest) :
    parseValue (f + 1) d ('{' :: '"' :: t) = .ok (.object ns) rest := by
  simp [parseValue, skipSpace, isSpace, Nat.not_le.2 hd, h]

theorem parseElements_last (f d : Nat) (input rest : List Char) (n : JNode)
    (h : parseValue f d input = .ok n (']' :: rest)) :
    parseElements (f + 1) d input = .ok [n] rest := by
  simp [parseElements, h, skipSpace, isSpace]

theorem parseElements_more (f d : Nat) (input rest1 rest : List Char) (n : JNode)
    (ns : List JNode) (h : parseValue f d input = .ok n (',' :: rest1))
    (hs : parseElements f d rest1 = .ok ns rest) :
    parseElements (f + 1) d input = .ok (n :: ns) rest := by
  simp [parseElements, h, skipSpace, isSpace, hs]

theorem parseMembers_last (f d : Nat) (t key input rest : List Char) (n : JNode)
    (hk : parseString none t = some (key, ':' :: input))
    (h : parseValue f d input = .ok n ('}' :: rest)) :
    parseMembers (f + 1) d ('"' :: t) = .ok [(key, n)] rest := by
  simp [parseMembers, hk, h, skipSpace, isSpace]

theorem parseMembers_more (f d : Nat) (t key input rest1 rest : List Char) (n : JNode)
    (ns : List (List Char × JNode))
    (hk : parseString none t = some (key, ':' :: input))
    (h : parseValue f d input = .ok n (',' :: rest1))
    (hs : parseMembers f d rest1 = .ok ns rest) :
    parseMembers (f + 1) d ('"' :: t) = .ok ((key, n) :: ns) rest := by
  simp [parseMembers, hk, h, skipSpace, isSpace, hs]

/-! ## What `Marshal` writes, `Unmarshal` reads back -/

section roundtrip
variable {F : Type} (fm : Strconv F)

theorem encode_head (hl : fm.Lawful) (v : Value F) (out : List Char)
    (h : encode fm v = .ok out) : ∃ c t, out = c :: t ∧ isValueStart c = true := by
  cases v with
  | nil =>
    simp only [encode, Except.ok.injEq] at h
    subst h
    exact ⟨'n', _, rfl, by decide⟩
  | bool b =>
    simp only [encode, Except.ok.injEq] at h
    subst h
    cases b
    · exact ⟨'f', _, rfl, by decide⟩
    · exact ⟨'t', _, rfl, by decide⟩
  | float64 f =>
    simp only [encode] at h
    split at h
    · rename_i lit hf
      simp only [Except.ok.injEq] at h
      subst h
      obtain ⟨c, t, hct, hc⟩ := isNumberLit_head _ (hl.format_lit f _ hf)
      refine ⟨c, t, hct, ?_⟩
      rcases hc with hc | hc
      · subst hc; decide
      · simp [isValueStart, hc]
    · simp at h
  | string s =>
    simp only [encode, Except.ok.injEq] at h
    subst h
    exact ⟨'"', _, rfl, by decide⟩
  | slice xs =>
    simp only [encode] at h
    split at h
    · simp only [Except.ok.injEq] at h
      subst h
      exact ⟨'[', _, rfl, by decide⟩
    · simp at h
  | map m =>
    simp only [encode] at h
    split at h
    · simp only [Except.ok.injEq] at h
      subst h
      exact ⟨'{', _, rfl, by decide⟩
    · simp at h

theorem encodeElements_false_head (xs : List (Value F)) (outs : List Char)
    (h : encodeElements fm false xs = .ok outs) :
    (xs = [] ∧ outs = []) ∨
    (∃ y ys out1 outs1, xs = y :: ys ∧ encode fm y = .ok out1 ∧
      encodeElements fm false ys = .ok outs1 ∧ outs = ',' :: (out1 ++ outs1)) := by
  cases xs with
  | nil =>
    simp only [encodeElements, Except.ok.injEq] at h
    exact Or.inl ⟨rfl, h.symm⟩
  | cons y ys =>
    simp only [encodeElements] at h
    split at h
    · rename_i out1 h1
      split at h
      · rename_i outs1 h2
        simp only [Except.ok.injEq] at h
        exact Or.inr ⟨y, ys, out1, outs1, rfl, h1, h2, by rw [← h]; simp⟩
      · simp at h
    · simp at h

theorem encodeMembers_false_head (xs : List (List Char × Value F)) (outs : List Char)
    (h : encodeMembers fm false xs = .ok outs) :
    (xs = [] ∧ outs = []) ∨
    (∃ key y ys out1 outs1, xs = (key, y) :: ys ∧ encode fm y = .ok out1 ∧
      encodeMembers fm false ys = .ok outs1 ∧
      outs = ',' :: (quote key ++ ':' :: (out1 ++ outs1))) := by
  cases xs with
  | nil =>
    simp only [encodeMembers, Except.ok.injEq] at h
    exact Or.inl ⟨rfl, h.symm⟩
  | cons p ys =>
    obtain ⟨key, y⟩ := p
    simp only [encodeMembers] at h
    split at h
    · rename_i out1 h1
      split at h
      · rename_i outs1 h2
        simp only [Except.ok.injEq] at h
        exact Or.inr ⟨key, y, ys, out1, outs1, rfl, h1, h2, by rw [← h]; simp⟩
      · simp at h
    · simp at h

theorem roundtrip (hl : fm.Lawful) (fuel : Nat) :
    (∀ k v d out rest, Decoded fm k v → d + k ≤ maxNestingDepth → out.length ≤ fuel →
      encode fm v = .ok out → NoNumberHead rest →
      ∃ n, parseValue fuel d (out ++ rest) = .ok n rest ∧ convert fm n = .ok v) ∧
    (∀ k x xs d out outs rest, Decoded fm k x → (∀ y ∈ xs, Decoded fm k y) →
      d + k ≤ maxNestingDepth → out.length + outs.length < fuel →
      encode fm x = .ok out → encodeElements fm false xs = .ok outs →
      ∃ ns, parseElements fuel d (out ++ (outs ++ ']' :: rest)) = .ok ns rest ∧
        convertElements fm ns = .ok (x :: xs)) ∧
    (∀ k key x xs d out outs rest, Decoded fm k x → (∀ p ∈ xs, Decoded fm k p.2) →
      d + k ≤ maxNestingDepth → out.length + outs.length < fuel →
      encode fm x = .ok out → encodeMembers fm false xs = .ok outs →
      ∃ ns, parseMembers fuel d (quote key ++ ':' :: (out ++ (outs ++ '}' :: rest))) =
          .ok ns rest ∧
        convertMembers fm ns = .ok ((key, x) :: xs)) := by
  induction fuel with
  | zero =>
    refine ⟨?_, ?_, ?_⟩
    · intro k v d out rest _ _ hlen henc _
      obtain ⟨c, t, hct, _⟩ := encode_head fm hl v out henc
      subst hct
      simp at hlen
    · intro k x xs d out outs rest _ _ _ hlen _ _
      omega
    · intro k key x xs d out outs rest _ _ _ hlen _ _
      omega
  | succ f ih =>
    obtain ⟨ihv, ihe, ihm⟩ := ih
    refine ⟨?_, ?_, ?_⟩
    · intro k v d out rest hdec hd hlen henc hrest
      cases hdec with
      | nil =>
        simp only [encode, Except.ok.injEq] at henc
        subst henc
        exact ⟨.null, parseValue_null f d rest, by simp [convert]⟩
      | bool _ b =>
        simp only [encode, Except.ok.injEq] at henc
        subst henc
        cases b
        · exact ⟨.bool false, parseValue_false f d rest, by simp [convert]⟩
        · exact ⟨.bool true, parseValue_true f d rest, by simp [convert]⟩
      | float64 _ x lit hx =>
        simp only [encode, hx, Except.ok.injEq] at henc
        subst henc
        refine ⟨.number lit, parseValue_number f d lit rest (hl.format_lit x lit hx) hrest, ?_⟩
        simp [convert, hl.format_parse x lit hx]
      | string _ s =>
        simp only [encode, Except.ok.injEq] at henc
        subst henc
        refine ⟨.string s, ?_, by simp [convert]⟩
        exact parseValue_string f d _ s rest (by simpa [quote] using parseString_escape s rest)
      | slice k1 xs hxs =>
        simp only [encode] at henc
        split at henc
        · rename_i outs houts
          simp only [Except.ok.injEq] at henc
          subst henc
          cases xs with
          | nil =>
            simp only [encodeElements, Except.ok.injEq] at houts
            subst houts
            exact ⟨.array [], parseValue_array_nil f d rest (by omega), by simp [convert, convertElements]⟩
          | cons x xs1 =>
            simp only [encodeElements] at houts
            split at houts
            · rename_i out1 h1
              split at houts
              · rename_i outs1 h2
                simp only [Except.ok.injEq] at houts
                subst houts
                simp only [List.length_cons, List.length_append, List.length_nil,
                  if_true, List.nil_append] at hlen
                obtain ⟨ns, hp, hc⟩ := ihe k1 x xs1 (d + 1) out1 outs1 rest
                  (hxs x (List.mem_cons_self _ _))
                  (fun y hy => hxs y (List.mem_cons_of_mem _ hy)) (by omega) (by omega) h1 h2
                obtain ⟨c, t, hct, hcs⟩ := encode_head fm hl x out1 h1
                subst hct
                refine ⟨.array ns, ?_, by simp [convert, hc]⟩
                have := parseValue_array f d c (t ++ (outs1 ++ ']' :: rest)) rest ns
                  (by omega) hcs (by simpa using hp)
                simpa using this
              · simp at houts
            · simp at houts
        · simp at henc
      | map k1 m hm hasc =>
        simp only [encode] at henc
        split at henc
        · rename_i outs houts
          simp only [Except.ok.injEq] at henc
          subst henc
          cases m with
          | nil =>
            simp only [encodeMembers, Except.ok.injEq] at houts
            subst houts
            exact ⟨.object [], parseValue_object_nil f d rest (by omega),
              by simp [convert, convertMembers, makeMap]⟩
          | cons p xs1 =>
            obtain ⟨key, x⟩ := p
            simp only [encodeMembers] at houts
            split at houts
            · rename_i out1 h1
              split at houts
              · rename_i outs1 h2
                simp only [Except.ok.injEq] at houts
                subst houts
                simp only [List.length_cons, List.length_append, List.length_nil,
                  if_true, List.nil_append] at hlen
                obtain ⟨ns, hp, hc⟩ := ihm k1 key x xs1 (d + 1) out1 outs1 rest
                  (hm (key, x) (List.mem_cons_self _ _))
                  (fun y hy => hm y (List.mem_cons_of_mem _ hy)) (by omega) (by omega) h1 h2
                refine ⟨.object ns, ?_, ?_⟩
                · have := parseValue_object f d
                    (escape key ++ '"' :: ':' :: (out1 ++ (outs1 ++ '}' :: rest))) rest ns
                    (by omega) (by simpa [quote] using hp)
                  simpa [quote] using this
                · simp [convert, hc, makeMap_of_ascending _ hasc]
              · simp at houts
            · simp at houts
        · simp at henc
    · intro k x xs d out outs rest hx hxs hd hlen henc hencs
      rcases encodeElements_false_head fm xs outs hencs with ⟨hnil, hout⟩ | h
      · subst hnil hout
        obtain ⟨n, hp, hc⟩ := ihv k x d out (']' :: rest) hx hd (by omega) henc
          (noNumberHead_cons _ (by decide))
        exact ⟨[n], by simpa using parseElements_last f d _ rest n hp,
          by simp [convertElements, hc]⟩
      · obtain ⟨y, ys, out1, outs1, hxs1, h1, h2, hout⟩ := h
        subst hxs1 hout
        simp only [List.length_cons, List.length_append] at hlen
        obtain ⟨n, hp, hc⟩ := ihv k x d out (',' :: (out1 ++ (outs1 ++ ']' :: rest))) hx hd
          (by omega) henc (noNumberHead_cons _ (by decide))
        obtain ⟨ns, hps, hcs⟩ := ihe k y ys d out1 outs1 rest
          (hxs y (List.mem_cons_self _ _))
          (fun z hz => hxs z (List.mem_cons_of_mem _ hz)) hd (by omega) h1 h2
        refine ⟨n :: ns, ?_, ?_⟩
        · have := parseElements_more f d _ _ rest n ns hp hps
          simpa using this
        · simp [convertElements, hc, hcs]
    · intro k key x xs d out outs rest hx hxs hd hlen henc hencs
      have hkey : ∀ tail, parseString none (escape key ++ '"' :: ':' :: tail) =
          some (key, ':' :: tail) := fun tail => parseString_escape key _
      rcases encodeMembers_false_head fm xs outs hencs with ⟨hnil, hout⟩ | h
      · subst hnil hout
        obtain ⟨n, hp, hc⟩ := ihv k x d out ('}' :: rest) hx hd (by omega) henc
          (noNumberHead_cons _ (by decide))
        refine ⟨[(key, n)], ?_, by simp [convertMembers, hc]⟩
        have := parseMembers_last f d _ key _ rest n (hkey _) hp
        simpa [quote] using this
      · obtain ⟨key1, y, ys, out1, outs1, hxs1, h1, h2, hout⟩ := h
        subst hxs1 hout
        simp only [List.length_cons, List.length_append] at hlen
        obtain ⟨n, hp, hc⟩ := ihv k x d out
          (',' :: (quote key1 ++ ':' :: (out1 ++ (outs1 ++ '}' :: rest)))) hx hd
          (by omega) henc (noNumberHead_cons _ (by decide))
        obtain ⟨ns, hps, hcs⟩ := ihm k key1 y ys d out1 outs1 rest
          (hxs (key1, y) (List.mem_cons_self _ _))
          (fun z hz => hxs z (List.mem_cons_of_mem _ hz)) hd (by omega) h1 h2
        refine ⟨(key, n) :: ns, ?_, ?_⟩
        · have := parseMembers_more f d _ key _ _ rest n ns (hkey _) hp hps
          simpa [quote] using this
        · simp [convertMembers, hc, hcs]

end roundtrip

/-! ## Decoded values -/

theorem parse_depth (fuel : Nat) :
    (∀ d input n rest, d ≤ maxNestingDepth → parseValue fuel d input = .ok n rest →
      NodeDepth (maxNestingDepth - d) n) ∧
    (∀ d input ns rest, d ≤ maxNestingDepth → parseElements fuel d input = .ok ns rest →
      ∀ n ∈ ns, NodeDepth (maxNestingDepth - d) n) ∧
    (∀ d input ms rest, d ≤ maxNestingDepth → parseMembers fuel d input = .ok ms rest →
      ∀ p ∈ ms, NodeDepth (maxNestingDepth - d) p.2) := by
  induction fuel with
  | zero =>
    refine ⟨?_, ?_, ?_⟩
    · intro d input n rest _ h
      simp [parseValue] at h
    · intro d input ns rest _ h
      simp [parseElements] at h
    · intro d input ms rest _ h
      simp [parseMembers] at h
  | succ f ih =>
    obtain ⟨ihv, ihe, ihm⟩ := ih
    refine ⟨?_, ?_, ?_⟩
    · intro d input n rest hd h
      simp only [parseValue] at h
      split at h
      · simp at h
      · split at h
        · split at h
          · simp at h
          · rename_i hlt
            have hk : maxNestingDepth - d = (maxNestingDepth - (d + 1)) + 1 := by omega
            split at h
            · simp only [Parsed.ok.injEq] at h
              rw [← h.1, hk]
              exact NodeDepth.object _ _ (by simp)
            · split at h
              · rename_i ms rest1 hm
                simp only [Parsed.ok.injEq] at h
                rw [← h.1, hk]
                exact NodeDepth.object _ _ (ihm _ _ _ _ (by omega) hm)
              · simp at h
              · simp at h
        · split at h
          · split at h
            · simp at h
            · rename_i hlt
              have hk : maxNestingDepth - d = (maxNestingDepth - (d + 1)) + 1 := by omega
              split at h
              · simp only [Parsed.ok.injEq] at h
                rw [← h.1, hk]
                exact NodeDepth.array _ _ (by simp)
              · split at h
                · rename_i ms rest1 hm
                  simp only [Parsed.ok.injEq] at h
                  rw [← h.1, hk]
                  exact NodeDepth.array _ _ (ihe _ _ _ _ (by omega) hm)
                · simp at h
                · simp at h
          · split at h
            · split at h
              · simp only [Parsed.ok.injEq] at h
                rw [← h.1]; exact NodeDepth.string _ _
              · simp at h
            · split at h
              · split at h
                · simp only [Parsed.ok.injEq] at h
                  rw [← h.1]; exact NodeDepth.bool _ _
                · simp at h
              · split at h
                · split at h
                  · simp only [Parsed.ok.injEq] at h
                    rw [← h.1]; exact NodeDepth.bool _ _
                  · simp at h
                · split at h
                  · split at h
                    · simp only [Parsed.ok.injEq] at h
                      rw [← h.1]; exact NodeDepth.null _
                    · simp at h
                  · split at h
                    · split at h
                      · simp only [Parsed.ok.injEq] at h
                        rw [← h.1]; exact NodeDepth.number _ _
                      · simp at h
                    · simp at h
    · intro d input ns rest hd h
      simp only [parseElements] at h
      split at h
      · rename_i v rest0 hv
        have h0 := ihv _ _ _ _ hd hv
        split at h
        · split at h
          · rename_i vs rest2 hvs
            simp only [Parsed.ok.injEq] at h
            have := ihe _ _ _ _ hd hvs
            rw [← h.1]
            intro n hn
            simp only [List.mem_cons] at hn
            rcases hn with hn | hn
            · rw [hn]; exact h0
            · exact this n hn
          · simp at h
          · simp at h
        · simp only [Parsed.ok.injEq] at h
          rw [← h.1]
          intro n hn
          simp only [List.mem_singleton] at hn
          rw [hn]; exact h0
        · simp at h
      · simp at h
      · simp at h
    · intro d input ms rest hd h
      simp only [parseMembers] at h
      split at h
      · split at h
        · simp at h
        · split at h
          · split at h
            · rename_i v rest3 hv
              have h0 := ihv _ _ _ _ hd hv
              split at h
              · split at h
                · rename_i ms1 rest5 hms
                  simp only [Parsed.ok.injEq] at h
                  have := ihm _ _ _ _ hd hms
                  rw [← h.1]
                  intro p hp
                  simp only [List.mem_cons] at hp
                  rcases hp with hp | hp
                  · rw [hp]; exact h0
                  · exact this p hp
                · simp at h
                · simp at h
              · simp only [Parsed.ok.injEq] at h
                rw [← h.1]
                intro p hp
                simp only [List.mem_singleton] at hp
                rw [hp]; exact h0
              · simp at h
            · simp at h
            · simp at h
          · simp at h
      · simp at h

section decoded
variable {F : Type} (fm : Strconv F)

theorem convertElements_all (P : Value F → Prop) (es : List JNode) :
    ∀ xs, (∀ e ∈ es, ∀ v, convert fm e = .ok v → P v) →
      convertElements fm es = .ok xs → ∀ x ∈ xs, P x := by
  induction es with
  | nil =>
    intro xs _ h
    simp only [convertElements, Except.ok.injEq] at h
    subst h
    simp
  | cons e es ih =>
    intro xs hes h
    simp only [convertElements] at h
    split at h
    · rename_i x hx
      split at h
      · rename_i xs1 hxs1
        simp only [Except.ok.injEq] at h
        subst h
        intro y hy
        simp only [List.mem_cons] at hy
        rcases hy with hy | hy
        · rw [hy]; exact hes e (List.mem_cons_self _ _) x hx
        · exact ih xs1 (fun e1 he1 => hes e1 (List.mem_cons_of_mem _ he1)) hxs1 y hy
      · simp at h
    · simp at h

theorem convertMembers_all (P : Value F → Prop) (ms : List (List Char × JNode)) :
    ∀ xs, (∀ p ∈ ms, ∀ v, convert fm p.2 = .ok v → P v) →
      convertMembers fm ms = .ok xs → ∀ q ∈ xs, P q.2 := by
  induction ms with
  | nil =>
    intro xs _ h
    simp only [convertMembers, Except.ok.injEq] at h
    subst h
    simp
  | cons p ms ih =>
    obtain ⟨k, e⟩ := p
    intro xs hes h
    simp only [convertMembers] at h
    split at h
    · rename_i x hx
      split at h
      · rename_i xs1 hxs1
        simp only [Except.ok.injEq] at h
        subst h
        intro y hy
        simp only [List.mem_cons] at hy
        rcases hy with hy | hy
        · rw [hy]; exact hes (k, e) (List.mem_cons_self _ _) x hx
        · exact ih xs1 (fun e1 he1 => hes e1 (List.mem_cons_of_mem _ he1)) hxs1 y hy
      · simp at h
    · simp at h

theorem convert_decoded (hfin : fm.ParsesFinite) (k : Nat) (n : JNode) (hn : NodeDepth k n) :
    ∀ v, convert fm n = .ok v → Decoded fm k v := by
  induction hn with
  | null k =>
    intro v h
    simp only [convert, Except.ok.injEq] at h
    subst h; exact Decoded.nil k
  | bool k b =>
    intro v h
    simp only [convert, Except.ok.injEq] at h
    subst h; exact Decoded.bool k b
  | number k lit =>
    intro v h
    simp only [convert] at h
    split at h
    · rename_i f hf
      simp only [Except.ok.injEq] at h
      subst h
      obtain ⟨out, hout⟩ := hfin lit f hf
      exact Decoded.float64 k f out hout
    · simp at h
  | string k s =>
    intro v h
    simp only [convert, Except.ok.injEq] at h
    subst h; exact Decoded.string k s
  | array k es _ ih =>
    intro v h
    simp only [convert] at h
    split at h
    · rename_i xs hxs
      simp only [Except.ok.injEq] at h
      subst h
      exact Decoded.slice k xs (convertElements_all fm (Decoded fm k) es xs ih hxs)
    · simp at h
  | object k ms _ ih =>
    intro v h
    simp only [convert] at h
    split at h
    · rename_i xs hxs
      simp only [Except.ok.injEq] at h
      subst h
      refine Decoded.map k _ ?_ (makeMap_ascending xs)
      intro p hp
      exact convertMembers_all fm (Decoded fm k) ms xs ih hxs p (mem_makeMap xs p hp)
    · simp at h

theorem nodeDepth_object {k : Nat} {ms : List (List Char × JNode)}
    (h : NodeDepth k (.object ms)) : ∃ k1, k = k1 + 1 ∧ ∀ p ∈ ms, NodeDepth k1 p.2 := by
  cases h with
  | object k1 _ hms => exact ⟨k1, rfl, hms⟩

theorem encodeElements_total (xs : List (Value F))
    (h : ∀ x ∈ xs, ∃ out, encode fm x = .ok out) :
    ∀ first, ∃ outs, encodeElements fm first xs = .ok outs := by
  induction xs with
  | nil => intro first; exact ⟨[], by simp [encodeElements]⟩
  | cons x xs ih =>
    intro first
    obtain ⟨out, hout⟩ := h x (List.mem_cons_self _ _)
    obtain ⟨outs, houts⟩ := ih (fun y hy => h y (List.mem_cons_of_mem _ hy)) false
    simp only [encodeElements, hout, houts]
    exact ⟨_, rfl⟩

theorem encodeMembers_total (xs : List (List Char × Value F))
    (h : ∀ p ∈ xs, ∃ out, encode fm p.2 = .ok out) :
    ∀ first, ∃ outs, encodeMembers fm first xs = .ok outs := by
  induction xs with
  | nil => intro first; exact ⟨[], by simp [encodeMembers]⟩
  | cons p xs ih =>
    obtain ⟨k, x⟩ := p
    intro first
    obtain ⟨out, hout⟩ := h (k, x) (List.mem_cons_self _ _)
    obtain ⟨outs, houts⟩ := ih (fun y hy => h y (List.mem_cons_of_mem _ hy)) false
    simp only [encodeMembers, hout, houts]
    exact ⟨_, rfl⟩

/-- A decoded value can always be encoded. -/
theorem encode_total (k : Nat) (v : Value F) (hv : Decoded fm k v) :
    ∃ out, encode fm v = .ok out := by
  induction hv with
  | nil k => simp only [encode]; exact ⟨_, rfl⟩
  | bool k b => simp only [encode]; exact ⟨_, rfl⟩
  | float64 k f out hf => simp only [encode, hf]; exact ⟨_, rfl⟩
  | string k s => simp only [encode]; exact ⟨_, rfl⟩
  | slice k xs _ ih =>
    obtain ⟨outs, houts⟩ := encodeElements_total fm xs ih true
    simp only [encode, houts]; exact ⟨_, rfl⟩
  | map k m _ _ ih =>
    obtain ⟨outs, houts⟩ := encodeMembers_total fm m ih true
    simp only [encode, houts]; exact ⟨_, rfl⟩

end decoded

/-! ## The conversions on natural numbers are lawful -/

theorem digitChar_spec : ∀ n, n < 10 →
    isDigit (digitChar n) = true ∧ (digitChar n).toNat - 48 = n ∧
      (0 < n → digitChar n ≠ '0') := by
  decide

theorem digitsValue_snoc (l : List Char) (r : Nat) (hr : r < 10) :
    ∀ acc, digitsValue (l ++ [digitChar r]) acc =
      (digitsValue l acc).bind (fun a => some (a * 10 + r)) := by
  induction l with
  | nil =>
    intro acc
    obtain ⟨h1, h2, _⟩ := digitChar_spec r hr
    simp [digitsValue, h1, h2]
  | cons c t ih =>
    intro acc
    simp only [List.cons_append, digitsValue]
    split
    · exact ih _
    · rfl

theorem digitsValue_decimalDigits (fuel : Nat) :
    ∀ n, n < fuel → digitsValue (decimalDigits fuel n) 0 = some n := by
  induction fuel with
  | zero => intro n h; omega
  | succ f ih =>
    intro n hn
    simp only [decimalDigits]
    split
    · rename_i h10
      obtain ⟨h1, h2, _⟩ := digitChar_spec n h10
      simp [digitsValue, h1, h2]
    · rw [digitsValue_snoc _ _ (Nat.mod_lt _ (by decide)), ih (n / 10) (by omega)]
      simp only [Option.some_bind, Option.some.injEq]
      omega

theorem decimalDigits_digits (fuel : Nat) :
    ∀ n, ∀ c ∈ decimalDigits fuel n, isDigit c = true := by
  induction fuel with
  | zero => intro n c hc; simp [decimalDigits] at hc
  | succ f ih =>
    intro n c hc
    simp only [decimalDigits] at hc
    split at hc
    · rename_i h10
      simp only [List.mem_singleton] at hc
      rw [hc]; exact (digitChar_spec n h10).1
    · simp only [List.mem_append, List.mem_singleton] at hc
      rcases hc with hc | hc
      · exact ih _ c hc
      · rw [hc]; exact (digitChar_spec _ (Nat.mod_lt _ (by decide))).1

theorem decimalDigits_head (fuel : Nat) :
    ∀ n, n < fuel → ∃ c t, decimalDigits fuel n = c :: t ∧
      ((c = '0' ∧ t = []) ∨ (c ≠ '0' ∧ isDigit c = true)) := by
  induction fuel with
  | zero => intro n h; omega
  | succ f ih =>
    intro n hn
    simp only [decimalDigits]
    split
    · rename_i h10
      refine ⟨digitChar n, [], rfl, ?_⟩
      obtain ⟨h1, _, h3⟩ := digitChar_spec n h10
      rcases Nat.eq_zero_or_pos n with h0 | h0
      · subst h0; exact Or.inl ⟨by decide, rfl⟩
      · exact Or.inr ⟨h3 h0, h1⟩
    · rename_i h10
      obtain ⟨c, t, hct, hc⟩ := ih (n / 10) (by omega)
      refine ⟨c, t ++ [digitChar (n % 10)], by rw [hct]; rfl, ?_⟩
      rcases hc with ⟨hc0, ht⟩ | hc
      · exfalso
        subst hc0 ht
        have := digitsValue_decimalDigits f (n / 10) (by omega)
        rw [hct] at this
        simp [digitsValue, isDigit] at this
        omega
      · exact Or.inr hc

theorem dropDigits_of_digits (l : List Char) (h : ∀ c ∈ l, isDigit c = true) :
    dropDigits l = [] := by
  induction l with
  | nil => rfl
  | cons c t ih =>
    simp only [dropDigits]
    rw [if_pos (h c (List.mem_cons_self _ _))]
    exact ih (fun x hx => h x (List.mem_cons_of_mem _ hx))

theorem isNumberLit_formatNat (n : Nat) : isNumberLit (formatNat n) = true := by
  obtain ⟨c, t, hct, hc⟩ := decimalDigits_head (n + 1) n (by omega)
  have hall := decimalDigits_digits (n + 1) n
  simp only [formatNat]
  rw [hct] at hall ⊢
  have hcd : isDigit c = true := hall c (List.mem_cons_self _ _)
  have hminus : c ≠ '-' := by
    intro h; subst h; revert hcd; decide
  rcases hc with ⟨hc0, ht⟩ | ⟨hc0, _⟩
  · subst hc0 ht
    decide
  · have ht : dropDigits t = [] :=
      dropDigits_of_digits t (fun x hx => hall x (List.mem_cons_of_mem _ hx))
    simp [isNumberLit, isUnsigned, hminus, hc0, hcd, ht, isFraction]

theorem natFloat_lawful : natFloat.Lawful where
  parse_finite := by
    intro lit f _
    exact ⟨_, rfl⟩
  format_lit := by
    intro f out h
    simp only [natFloat, Except.ok.injEq] at h
    rw [← h]
    exact isNumberLit_formatNat _
  format_parse := by
    intro f out h
    simp only [natFloat, Except.ok.injEq] at h
    rw [← h]
    have := digitsValue_decimalDigits (f.val + 1) f.val (by omega)
    simp only [natFloat, formatNat, this]
    simp

/-! ## Decoding a record -/

section unmarshal
variable {F : Type} (fm : Strconv F)

theorem unmarshal_some (data : List Char) (m : List (List Char × Value F))
    (h : json.Unmarshal fm data = .ok (some m)) :
    ∃ ms rest entries, parseDocument data = .ok (.object ms) rest ∧
      convertMembers fm ms = .ok entries ∧ m = makeMap entries := by
  simp only [json.Unmarshal] at h
  split at h
  · rename_i node rest hp
    split at h
    · simp at h
    · rename_i ms
      split at h
      · rename_i entries hc
        simp only [Except.ok.injEq, Option.some.injEq] at h
        exact ⟨ms, rest, entries, hp, hc, h.symm⟩
      · simp at h
    · simp at h
    · simp at h
    · simp at h
    · simp at h
  · simp at h
  · simp at h

/-- Decoding into a record succeeds exactly for a JSON object each of whose
members converts, that is, whose numbers all fit a `float64`. -/
theorem unmarshal_some_iff (data : List Char) (m : List (List Char × Value F)) :
    json.Unmarshal fm data = .ok (some m) ↔
      ∃ ms rest entries, parseDocument data = .ok (.object ms) rest ∧
        convertMembers fm ms = .ok entries ∧ m = makeMap entries := by
  constructor
  · exact unmarshal_some fm data m
  · rintro ⟨ms, rest, entries, hp, hc, hm⟩
    simp only [json.Unmarshal, hp, hc, hm]

theorem parseDocument_ok (data : List Char) (n : JNode) (rest : List Char)
    (h : parseDocument data = .ok n rest) :
    ∃ rest1, parseValue (2 * data.length + 2) 0 data = .ok n rest1 := by
  simp only [parseDocument] at h
  split at h
  · rename_i v rest1 hv
    split at h
    · simp only [Parsed.ok.injEq] at h
      exact ⟨rest1, by rw [← h.1]; exact hv⟩
    · simp at h
  · simp at h
  · simp at h

/-- Every entry of a decoded record is a decoded value nested one level down. -/
theorem unmarshal_decoded (hfin : fm.ParsesFinite) (data : List Char)
    (m : List (List Char × Value F)) (h : json.Unmarshal fm data = .ok (some m)) :
    ∀ p ∈ m, Decoded fm (maxNestingDepth - 1) p.2 := by
  obtain ⟨ms, rest, entries, hp, hc, hm⟩ := unmarshal_some fm data m h
  obtain ⟨rest1, hv⟩ := parseDocument_ok data _ rest hp
  have hdepth := (parse_depth _).1 0 data _ rest1 (Nat.zero_le _) hv
  obtain ⟨k1, hk, hms⟩ := nodeDepth_object hdepth
  have hk1 : k1 = maxNestingDepth - 1 := by omega
  subst hm
  intro p hp
  rw [← hk1]
  exact convertMembers_all fm (Decoded fm k1) ms entries
    (fun q hq v hv => convert_decoded fm hfin k1 q.2 (hms q hq) v hv) hc p (mem_makeMap _ p hp)

/-- A non-nil value found under `"fee"` is a decoded value. -/
theorem mapIndex_decoded (hfin : fm.ParsesFinite) (data : List Char) (param : GoMap F)
    (h : json.Unmarshal fm data = .ok param) (hfee : mapIndex param feeKey ≠ .nil) :
    Decoded fm (maxNestingDepth - 1) (mapIndex param feeKey) := by
  cases param with
  | none => exact absurd rfl hfee
  | some m =>
    simp only [mapIndex] at hfee ⊢
    split
    · rename_i v hv
      exact unmarshal_decoded fm hfin data m h (feeKey, v) (mapLookup_mem _ _ _ hv)
    · exact Decoded.nil _

/-- The text `Marshal` writes for a decoded value decodes to that value. -/
theorem unmarshalAny_encode (hl : fm.Lawful) (k : Nat) (v : Value F) (out : List Char)
    (hv : Decoded fm k v) (hk : k ≤ maxNestingDepth) (henc : encode fm v = .ok out) :
    json.UnmarshalAny fm out = .ok v := by
  obtain ⟨n, hp, hc⟩ := (roundtrip fm hl (2 * out.length + 2)).1 k v 0 out [] hv (by omega)
    (by omega) henc noNumberHead_nil
  rw [List.append_nil] at hp
  simp [json.UnmarshalAny, parseDocument, hp, skipSpace, hc]

end unmarshal

/-! ## The claims -/

section claims
variable {F : Type} (fm : Strconv F)

theorem newWrites_returned (h h1 : Host) (s : Int) (w : HostWrite)
    (hw : h1.writes = h.writes ++ [w]) : (Outcome.returned s h1).newWrites h = [w] := by
  simp [Outcome.newWrites, Outcome.host, hw]

theorem newWrites_panicked (h : Host) : (Outcome.panicked h).newWrites h = [] := by
  simp [Outcome.newWrites, Outcome.host]

theorem mapIndex_some (m : List (List Char × Value F)) (v : Value F)
    (h : mapLookup feeKey m = some v) : mapIndex (some m) feeKey = v := by
  simp [mapIndex, h]

/-- What a call does is fixed by what decoding its input gives. -/
theorem map_u5c_tx_congr (h1 h2 : Host) (hin : h1.input = h2.input) :
    (map_u5c_tx fm h1).status = (map_u5c_tx fm h2).status ∧
    (map_u5c_tx fm h1).newWrites h1 = (map_u5c_tx fm h2).newWrites h2 ∧
    ((map_u5c_tx fm h1).status = some 0 →
      (map_u5c_tx fm h1).host.output = (map_u5c_tx fm h2).host.output) ∧
    ((map_u5c_tx fm h1).status = some 1 →
      (map_u5c_tx fm h1).host.error = (map_u5c_tx fm h2).host.error) := by
  rcases map_u5c_tx_cases fm h1 with ⟨err, hd, hr⟩ | ⟨param, hd, hf, hr⟩ |
    ⟨param, err, hd, hf, he, hr⟩ | ⟨param, out, hd, hf, he, hr⟩
  · have hr2 := map_u5c_tx_of_decode_error fm h2 err (hin ▸ hd)
    rw [hr, hr2]
    simp [Outcome.status, Outcome.newWrites, Outcome.host, pdk.SetError]
  · have hr2 := map_u5c_tx_of_nil fm h2 param (hin ▸ hd) hf
    rw [hr, hr2]
    simp [Outcome.status, Outcome.newWrites, Outcome.host]
  · have hr2 := map_u5c_tx_of_encode_error fm h2 param err (hin ▸ hd) hf he
    rw [hr, hr2]
    simp [Outcome.status, Outcome.newWrites, Outcome.host, pdk.SetError]
  · have hr2 := map_u5c_tx_of_encoded fm h2 param out (hin ▸ hd) hf he
    rw [hr, hr2]
    simp [Outcome.status, Outcome.newWrites, Outcome.host]

theorem host_input (h : Host) : (map_u5c_tx fm h).host.input = h.input := by
  rcases map_u5c_tx_cases fm h with ⟨err, _, hr⟩ | ⟨param, _, _, hr⟩ |
    ⟨param, err, _, _, _, hr⟩ | ⟨param, out, _, _, _, hr⟩ <;>
  · rw [hr]; simp [Outcome.host, pdk.SetError]

/-- C1, as stated, fails: `{"fee": 1, "x": 1e999}` is a valid JSON object that
holds the number 1 under `"fee"`, but `1e999` exceeds the range of `float64`,
so decoding reports an error and `map_u5c_tx` returns status 1 and writes no
output. -/
theorem out_of_range_member_fails :
    parseDocument feeAndHuge =
      .ok (.object [(feeKey, .number "1".toList), ("x".toList, .number "1e999".toList)]) [] ∧
    json.Unmarshal natFloat feeAndHuge =
      .error (.unmarshalTypeError "number 1e999".toList "float64".toList) ∧
    map_u5c_tx natFloat (Host.fresh feeAndHuge) =
      .returned 1 (pdk.SetError (Host.fresh feeAndHuge)
        (.unmarshalTypeError "number 1e999".toList "float64".toList)) ∧
    (map_u5c_tx natFloat (Host.fresh feeAndHuge)).status ≠ some 0 ∧
    (map_u5c_tx natFloat (Host.fresh feeAndHuge)).host.output = none :=
  ⟨rfl, rfl, rfl, by decide, rfl⟩

/-- C1 (amended): for every input that `json.Unmarshal` decodes without error
(a valid JSON object all of whose numbers are within the range of `float64`)
into a record whose entry under `"fee"`, the last one when the key is
repeated, is a value `v` other than null (a number, a string, a boolean, an
array or an object), `map_u5c_tx` returns status 0 and the bytes it writes to
the host output decode to exactly `v`. -/
theorem fee_round_trip (hl : fm.Lawful) (h : Host) (m : List (List Char × Value F))
    (v : Value F) (hdec : json.Unmarshal fm h.input = .ok (some m))
    (hfee : mapLookup feeKey m = some v) (hv : v ≠ .nil) :
    ∃ out, map_u5c_tx fm h =
        .returned 0 { h with output := some out, writes := h.writes ++ [.output out] } ∧
      json.UnmarshalAny fm out = .ok v := by
  have hidx := mapIndex_some m v hfee
  have hne : mapIndex (some m) feeKey ≠ .nil := by rw [hidx]; exact hv
  have hd := mapIndex_decoded fm hl.parse_finite h.input (some m) hdec hne
  rw [hidx] at hd
  obtain ⟨out, henc⟩ := encode_total fm _ v hd
  refine ⟨out, ?_, unmarshalAny_encode fm hl _ v out hd (Nat.sub_le _ _) henc⟩
  exact map_u5c_tx_of_encoded fm h (some m) out hdec hne (by rw [hidx]; exact henc)

/-- Scenarios A and D: the fee `1500` and the nested fee come back unchanged. -/
theorem fee_round_trip_witness :
    (∃ out, map_u5c_tx natFloat (Host.fresh scenarioA) =
        .returned 0 { Host.fresh scenarioA with
          output := some out, writes := (Host.fresh scenarioA).writes ++ [.output out] } ∧
      json.UnmarshalAny natFloat out = .ok (.float64 1500)) ∧
    (∃ out, map_u5c_tx natFloat (Host.fresh scenarioD) =
        .returned 0 { Host.fresh scenarioD with
          output := some out, writes := (Host.fresh scenarioD).writes ++ [.output out] } ∧
      json.UnmarshalAny natFloat out = .ok feeD) :=
  ⟨fee_round_trip natFloat natFloat_lawful (Host.fresh scenarioA)
      [(feeKey, .float64 1500), ("hash".toList, .string "abc".toList)] (.float64 1500)
      rfl rfl (by simp),
    fee_round_trip natFloat natFloat_lawful (Host.fresh scenarioD)
      [(feeKey, feeD)] feeD rfl rfl (by simp [feeD])⟩

/-- C2, as stated, fails: the input `null` is valid JSON that is not an object,
yet decoding it reports no error (the map stays nil), no error is written and
the call panics instead of returning status 1. -/
theorem null_input_panics :
    json.Unmarshal natFloat nullText = .ok none ∧
    map_u5c_tx natFloat (Host.fresh nullText) = .panicked (Host.fresh nullText) ∧
    (map_u5c_tx natFloat (Host.fresh nullText)).status ≠ some 1 ∧
    (map_u5c_tx natFloat (Host.fresh nullText)).host.error = none :=
  ⟨rfl, rfl, by decide, rfl⟩

/-- C2 (amended): for every input on which decoding reports an error, which
includes every input that is not valid JSON and every valid JSON text whose
value is an array, a number, a string or a boolean (but not `null`),
`map_u5c_tx` returns status 1, leaves the output untouched and writes a
non-empty error description, the text of the decoding error. -/
theorem decode_failure (h : Host)
    (hfail : parseDocument h.input = .syntaxError ∨
      (∃ n rest, parseDocument h.input = .ok n rest ∧ n ≠ .null ∧ ∀ ms, n ≠ .object ms) ∨
      (∃ err, json.Unmarshal fm h.input = .error err)) :
    ∃ err, json.Unmarshal fm h.input = .error err ∧
      map_u5c_tx fm h = .returned 1 (pdk.SetError h err) ∧
      (pdk.SetError h err).output = h.output ∧
      (pdk.SetError h err).error = some err.Error ∧
      (map_u5c_tx fm h).newWrites h = [.error err.Error] ∧
      err.Error ≠ [] := by
  have hex : ∃ err, json.Unmarshal fm h.input = .error err := by
    rcases hfail with hs | ⟨n, rest, hp, hnull, hobj⟩ | he
    · exact ⟨.syntaxError, by simp [json.Unmarshal, hs]⟩
    · cases n with
      | null => exact absurd rfl hnull
      | object ms => exact absurd rfl (hobj ms)
      | bool b => simp only [json.Unmarshal, hp]; exact ⟨_, rfl⟩
      | number lit => simp only [json.Unmarshal, hp]; exact ⟨_, rfl⟩
      | string s => simp only [json.Unmarshal, hp]; exact ⟨_, rfl⟩
      | array es => simp only [json.Unmarshal, hp]; exact ⟨_, rfl⟩
    · exact he
  obtain ⟨err, hd⟩ := hex
  have hr := map_u5c_tx_of_decode_error fm h err hd
  refine ⟨err, hd, hr, rfl, rfl, ?_, error_text_ne_nil err⟩
  rw [hr]
  exact newWrites_returned h _ 1 _ rfl

/-- The array `[1, 2]` is rejected with status 1 and a type error. -/
theorem decode_failure_witness :
    ∃ err, json.Unmarshal natFloat (Host.fresh arrayText).input = .error err ∧
      map_u5c_tx natFloat (Host.fresh arrayText) =
        .returned 1 (pdk.SetError (Host.fresh arrayText) err) ∧
      (pdk.SetError (Host.fresh arrayText) err).output = (Host.fresh arrayText).output ∧
      (pdk.SetError (Host.fresh arrayText) err).error = some err.Error ∧
      (map_u5c_tx natFloat (Host.fresh arrayText)).newWrites (Host.fresh arrayText) =
        [.error err.Error] ∧
      err.Error ≠ [] :=
  decode_failure natFloat (Host.fresh arrayText)
    (Or.inr (Or.inl ⟨.array [.number "1".toList, .number "2".toList], [], rfl,
      by simp, by simp⟩))

/-- C3: on scenario B, a record without `"fee"`, the input decodes, the lookup
yields nil and the call panics; it returns no status and writes nothing. -/
theorem missing_key_panics :
    json.Unmarshal natFloat scenarioB =
      .ok (some [("hash".toList, .string "abc".toList)]) ∧
    map_u5c_tx natFloat (Host.fresh scenarioB) = .panicked (Host.fresh scenarioB) ∧
    (map_u5c_tx natFloat (Host.fresh scenarioB)).status = none :=
  ⟨rfl, rfl, rfl⟩

end claims

section claims2
variable {F : Type} (fm : Strconv F)

/-- C4: a call that returns, returns 0 or 1; it returns 0 exactly when the
input decoded, the value under `"fee"` passed the assertion, was encoded and
written to the host output, and no error was written; it returns 1 exactly
when an error was written. -/
theorem status_code_meaning (h h1 : Host) (s : Int)
    (hr : map_u5c_tx fm h = .returned s h1) :
    (s = 0 ∨ s = 1) ∧
    (s = 0 ↔ ∃ param fee out, pdk.InputJSON fm h = .ok param ∧
      assertInterface (mapIndex param feeKey) = some fee ∧
      json.Marshal fm fee = .ok out ∧
      h1 = { h with output := some out, writes := h.writes ++ [.output out] }) ∧
    (s = 1 ↔ ∃ message,
      h1 = { h with error := some message, writes := h.writes ++ [.error message] }) := by
  rcases map_u5c_tx_cases fm h with ⟨err, hd, hr1⟩ | ⟨param, hd, hf, hr1⟩ |
    ⟨param, err, hd, hf, he, hr1⟩ | ⟨param, out, hd, hf, he, hr1⟩
  · rw [hr1] at hr
    simp only [Outcome.returned.injEq] at hr
    obtain ⟨hs, hh⟩ := hr
    subst hs hh
    refine ⟨Or.inr rfl, ?_, ?_⟩
    · simp [pdk.SetError]
    · simp only [true_iff]
      exact ⟨err.Error, rfl⟩
  · rw [hr1] at hr
    simp at hr
  · rw [hr1] at hr
    simp only [Outcome.returned.injEq] at hr
    obtain ⟨hs, hh⟩ := hr
    subst hs hh
    refine ⟨Or.inr rfl, ?_, ?_⟩
    · simp [pdk.SetError]
    · simp only [true_iff]
      exact ⟨err.Error, rfl⟩
  · rw [hr1] at hr
    simp only [Outcome.returned.injEq] at hr
    obtain ⟨hs, hh⟩ := hr
    subst hs hh
    refine ⟨Or.inl rfl, ?_, ?_⟩
    · simp only [true_iff]
      exact ⟨param, mapIndex param feeKey, out, hd,
        (assertInterface_eq_some _ _).2 ⟨rfl, hf⟩, he, rfl⟩
    · simp

/-- Scenario A returns 0, so the three statements hold of its outcome. -/
theorem status_code_meaning_witness :
    ((0 : Int) = 0 ∨ (0 : Int) = 1) ∧
    ((0 : Int) = 0 ↔ ∃ param fee out, pdk.InputJSON natFloat (Host.fresh scenarioA) = .ok param ∧
      assertInterface (mapIndex param feeKey) = some fee ∧
      json.Marshal natFloat fee = .ok out ∧
      ({ Host.fresh scenarioA with
          output := some "1500".toList, writes := [.output "1500".toList] } : Host) =
        { Host.fresh scenarioA with
          output := some out, writes := (Host.fresh scenarioA).writes ++ [.output out] }) ∧
    ((0 : Int) = 1 ↔ ∃ message,
      ({ Host.fresh scenarioA with
          output := some "1500".toList, writes := [.output "1500".toList] } : Host) =
        { Host.fresh scenarioA with
          error := some message,
          writes := (Host.fresh scenarioA).writes ++ [.error message] }) :=
  status_code_meaning natFloat (Host.fresh scenarioA)
    { Host.fresh scenarioA with output := some "1500".toList, writes := [.output "1500".toList] }
    0 rfl

/-- C5: the status and the bytes written depend on the input bytes alone.  Two
hosts with the same input, whatever their slots held before, get the same
status and the same writes; in particular a second call on the host the first
call left behaves as the first did. -/
theorem same_input_same_result (h1 h2 : Host) (hin : h1.input = h2.input) :
    (map_u5c_tx fm h1).status = (map_u5c_tx fm h2).status ∧
    (map_u5c_tx fm h1).newWrites h1 = (map_u5c_tx fm h2).newWrites h2 ∧
    ((map_u5c_tx fm h1).status = some 0 →
      (map_u5c_tx fm h1).host.output = (map_u5c_tx fm h2).host.output) ∧
    (map_u5c_tx fm (map_u5c_tx fm h1).host).status = (map_u5c_tx fm h1).status ∧
    (map_u5c_tx fm (map_u5c_tx fm h1).host).newWrites (map_u5c_tx fm h1).host =
      (map_u5c_tx fm h1).newWrites h1 := by
  obtain ⟨a, b, c, _⟩ := map_u5c_tx_congr fm h1 h2 hin
  obtain ⟨a1, b1, _, _⟩ := map_u5c_tx_congr fm (map_u5c_tx fm h1).host h1 (host_input fm h1)
  exact ⟨a, b, c, a1, b1⟩

/-- Scenario D on a fresh host and on a host with stale slots. -/
theorem same_input_same_result_witness :
    (map_u5c_tx natFloat (Host.fresh scenarioD)).status = (map_u5c_tx natFloat usedHost).status ∧
    (map_u5c_tx natFloat (Host.fresh scenarioD)).newWrites (Host.fresh scenarioD) =
      (map_u5c_tx natFloat usedHost).newWrites usedHost ∧
    ((map_u5c_tx natFloat (Host.fresh scenarioD)).status = some 0 →
      (map_u5c_tx natFloat (Host.fresh scenarioD)).host.output =
        (map_u5c_tx natFloat usedHost).host.output) ∧
    (map_u5c_tx natFloat (map_u5c_tx natFloat (Host.fresh scenarioD)).host).status =
      (map_u5c_tx natFloat (Host.fresh scenarioD)).status ∧
    (map_u5c_tx natFloat (map_u5c_tx natFloat (Host.fresh scenarioD)).host).newWrites
        (map_u5c_tx natFloat (Host.fresh scenarioD)).host =
      (map_u5c_tx natFloat (Host.fresh scenarioD)).newWrites (Host.fresh scenarioD) :=
  same_input_same_result natFloat (Host.fresh scenarioD) usedHost rfl

/-- C6: when encoding the value found under `"fee"` fails, `map_u5c_tx` writes
the text of that error to the error slot, leaves the output untouched and
returns status 1. -/
theorem encode_failure (h : Host) (param : GoMap F) (fee : Value F) (err : JsonError)
    (hdec : pdk.InputJSON fm h = .ok param)
    (hfee : assertInterface (mapIndex param feeKey) = some fee)
    (henc : json.Marshal fm fee = .error err) :
    map_u5c_tx fm h = .returned 1 (pdk.SetError h err) ∧
    (pdk.SetError h err).error = some err.Error ∧
    (pdk.SetError h err).output = h.output ∧
    (map_u5c_tx fm h).newWrites h = [.error err.Error] := by
  obtain ⟨hx, hne⟩ := (assertInterface_eq_some _ _).1 hfee
  have hr := map_u5c_tx_of_encode_error fm h param err hdec (by rw [hx]; exact hne)
    (by rw [hx]; exact henc)
  refine ⟨hr, rfl, rfl, ?_⟩
  rw [hr]
  exact newWrites_returned h _ 1 _ rfl

/-- Under conversions that parse `1` to NaN, `{"fee": 1}` cannot be encoded. -/
theorem encode_failure_witness :
    map_u5c_tx nanFloat (Host.fresh feeOne) =
      .returned 1 (pdk.SetError (Host.fresh feeOne) (.unsupportedValueError "NaN".toList)) ∧
    (pdk.SetError (Host.fresh feeOne) (.unsupportedValueError "NaN".toList)).error =
      some (JsonError.unsupportedValueError "NaN".toList).Error ∧
    (pdk.SetError (Host.fresh feeOne) (.unsupportedValueError "NaN".toList)).output =
      (Host.fresh feeOne).output ∧
    (map_u5c_tx nanFloat (Host.fresh feeOne)).newWrites (Host.fresh feeOne) =
      [.error (JsonError.unsupportedValueError "NaN".toList).Error] :=
  encode_failure nanFloat (Host.fresh feeOne) (some [(feeKey, .float64 ())]) (.float64 ())
    (.unsupportedValueError "NaN".toList) rfl rfl rfl

/-- C7: a call that returns makes exactly one write and changes nothing else:
with status 0 it sets the output slot and leaves the error slot as it was, with
status 1 it sets the error slot and leaves the output slot as it was; the input
is never changed. -/
theorem side_effects_frame (h h1 : Host) (s : Int)
    (hr : map_u5c_tx fm h = .returned s h1) :
    h1.input = h.input ∧
    ((map_u5c_tx fm h).newWrites h).length ≤ 1 ∧
    h1.writes = h.writes ++ (map_u5c_tx fm h).newWrites h ∧
    (s = 0 → ∃ out, (map_u5c_tx fm h).newWrites h = [.output out] ∧
      h1 = { h with output := some out, writes := h.writes ++ [.output out] } ∧
      h1.error = h.error) ∧
    (s = 1 → ∃ message, (map_u5c_tx fm h).newWrites h = [.error message] ∧
      h1 = { h with error := some message, writes := h.writes ++ [.error message] } ∧
      h1.output = h.output) := by
  rcases map_u5c_tx_cases fm h with ⟨err, hd, hr1⟩ | ⟨param, hd, hf, hr1⟩ |
    ⟨param, err, hd, hf, he, hr1⟩ | ⟨param, out, hd, hf, he, hr1⟩
  · rw [hr1] at hr ⊢
    simp only [Outcome.returned.injEq] at hr
    obtain ⟨hs, hh⟩ := hr
    subst hs hh
    rw [newWrites_returned h _ 1 (.error err.Error) rfl]
    refine ⟨rfl, by simp, rfl, by simp, fun _ => ⟨err.Error, rfl, rfl, rfl⟩⟩
  · rw [hr1] at hr
    simp at hr
  · rw [hr1] at hr ⊢
    simp only [Outcome.returned.injEq] at hr
    obtain ⟨hs, hh⟩ := hr
    subst hs hh
    rw [newWrites_returned h _ 1 (.error err.Error) rfl]
    refine ⟨rfl, by simp, rfl, by simp, fun _ => ⟨err.Error, rfl, rfl, rfl⟩⟩
  · rw [hr1] at hr ⊢
    simp only [Outcome.returned.injEq] at hr
    obtain ⟨hs, hh⟩ := hr
    subst hs hh
    rw [newWrites_returned h _ 0 (.output out) rfl]
    refine ⟨rfl, by simp, rfl, fun _ => ⟨out, rfl, rfl, rfl⟩, by simp⟩

/-- Scenario D on a host with stale slots: the output is replaced, the old
error stays. -/
theorem side_effects_frame_witness :
    (map_u5c_tx natFloat usedHost).host.input = usedHost.input ∧
    ((map_u5c_tx natFloat usedHost).newWrites usedHost).length ≤ 1 ∧
    (map_u5c_tx natFloat usedHost).host.writes =
      usedHost.writes ++ (map_u5c_tx natFloat usedHost).newWrites usedHost ∧
    ((0 : Int) = 0 → ∃ out, (map_u5c_tx natFloat usedHost).newWrites usedHost = [.output out] ∧
      (map_u5c_tx natFloat usedHost).host =
        { usedHost with output := some out, writes := usedHost.writes ++ [.output out] } ∧
      (map_u5c_tx natFloat usedHost).host.error = usedHost.error) ∧
    ((0 : Int) = 1 → ∃ message,
      (map_u5c_tx natFloat usedHost).newWrites usedHost = [.error message] ∧
      (map_u5c_tx natFloat usedHost).host =
        { usedHost with error := some message, writes := usedHost.writes ++ [.error message] } ∧
      (map_u5c_tx natFloat usedHost).host.output = usedHost.output) :=
  side_effects_frame natFloat usedHost (map_u5c_tx natFloat usedHost).host 0 rfl

end claims2

section claims3
variable {F : Type} (fm : Strconv F)

theorem mapIndex_eq_nil (param : GoMap F) :
    mapIndex param feeKey = .nil ↔
      param = none ∨ ∃ m, param = some m ∧
        (mapLookup feeKey m = none ∨ mapLookup feeKey m = some .nil) := by
  cases param with
  | none => exact ⟨fun _ => Or.inl rfl, fun _ => rfl⟩
  | some m =>
    cases hl : mapLookup feeKey m with
    | none =>
      refine ⟨fun _ => Or.inr ⟨m, rfl, Or.inl hl⟩, fun _ => ?_⟩
      simp only [mapIndex, hl]
    | some v =>
      rw [mapIndex_some m v hl]
      constructor
      · intro hv
        exact Or.inr ⟨m, rfl, Or.inr (by rw [hl, hv])⟩
      · rintro (hn | ⟨m1, hm, hn | hs⟩)
        · exact absurd hn (by intro h; cases h)
        · cases hm
          rw [hl] at hn
          cases hn
        · cases hm
          rw [hl] at hs
          cases hs
          rfl

/-- C8: `map_u5c_tx` returns a status exactly when decoding fails or the decoded
record holds a value other than null under `"fee"`; it panics exactly when
decoding reports no error and the value looked up is nil, which is the case for
a nil map, for an absent key and for a key holding null.  The input `null`
decodes to the nil map, `{"fee": null}` to a record holding null under
`"fee"`, and `{"hash": "abc"}` to a record without `"fee"`. -/
theorem crash_condition (h : Host) :
    ((∃ s h1, map_u5c_tx fm h = .returned s h1) ↔
      ((∃ err, json.Unmarshal fm h.input = .error err) ∨
        ∃ m v, json.Unmarshal fm h.input = .ok (some m) ∧ mapLookup feeKey m = some v ∧
          v ≠ .nil)) ∧
    ((∃ h1, map_u5c_tx fm h = .panicked h1) ↔
      ∃ param, json.Unmarshal fm h.input = .ok param ∧ mapIndex param feeKey = .nil) ∧
    (∀ param : GoMap F, mapIndex param feeKey = .nil ↔
      param = none ∨ ∃ m, param = some m ∧
        (mapLookup feeKey m = none ∨ mapLookup feeKey m = some .nil)) ∧
    json.Unmarshal fm nullText = .ok none ∧
    json.Unmarshal fm feeNull = .ok (some [(feeKey, .nil)]) ∧
    json.Unmarshal fm scenarioB = .ok (some [("hash".toList, .string "abc".toList)]) ∧
    mapLookup feeKey [("hash".toList, (Value.string "abc".toList : Value F))] = none := by
  refine ⟨?_, ?_, mapIndex_eq_nil, rfl, rfl, rfl, rfl⟩
  · rcases map_u5c_tx_cases fm h with ⟨err, hd, hr⟩ | ⟨param, hd, hf, hr⟩ |
      ⟨param, err, hd, hf, he, hr⟩ | ⟨param, out, hd, hf, he, hr⟩
    · exact ⟨fun _ => Or.inl ⟨err, hd⟩, fun _ => ⟨_, _, hr⟩⟩
    · constructor
      · rintro ⟨s, h1, hs⟩
        rw [hr] at hs
        simp at hs
      · rintro (⟨err, he⟩ | ⟨m, v, hm, hv, hne⟩)
        · rw [hd] at he
          simp at he
        · rw [hd] at hm
          simp only [Except.ok.injEq] at hm
          subst hm
          rw [mapIndex_some m v hv] at hf
          exact absurd hf hne
    all_goals
      constructor
      · intro _
        cases param with
        | none => exact absurd rfl hf
        | some m =>
          cases hl : mapLookup feeKey m with
          | none => simp [mapIndex, hl] at hf
          | some v =>
            refine Or.inr ⟨m, v, hd, hl, ?_⟩
            rw [mapIndex_some m v hl] at hf
            exact hf
      · intro _
        exact ⟨_, _, hr⟩
  · rcases map_u5c_tx_cases fm h with ⟨err, hd, hr⟩ | ⟨param, hd, hf, hr⟩ |
      ⟨param, err, hd, hf, he, hr⟩ | ⟨param, out, hd, hf, he, hr⟩
    · constructor
      · rintro ⟨h1, hp⟩
        rw [hr] at hp
        simp at hp
      · rintro ⟨param, hp, _⟩
        rw [hd] at hp
        simp at hp
    · exact ⟨fun _ => ⟨param, hd, hf⟩, fun _ => ⟨h, hr⟩⟩
    all_goals
      constructor
      · rintro ⟨h1, hp⟩
        rw [hr] at hp
        simp at hp
      · rintro ⟨param1, hp, hnil⟩
        rw [hd] at hp
        simp only [Except.ok.injEq] at hp
        subst hp
        exact absurd hnil hf

/-- C9: when every parsed number is finite, a value other than null found under
`"fee"` is always encoded: `OutputJSON` returns no error and `map_u5c_tx`
returns 0.  Hence status 1 is returned only when decoding failed. -/
theorem encode_error_unreachable (hfin : fm.ParsesFinite) (h : Host) :
    (∀ param, json.Unmarshal fm h.input = .ok param → mapIndex param feeKey ≠ .nil →
      ∃ out, json.Marshal fm (mapIndex param feeKey) = .ok out ∧
        (pdk.OutputJSON fm h (mapIndex param feeKey)).2 = none ∧
        map_u5c_tx fm h =
          .returned 0 { h with output := some out, writes := h.writes ++ [.output out] }) ∧
    (∀ h1, map_u5c_tx fm h = .returned 1 h1 →
      ∃ err, json.Unmarshal fm h.input = .error err ∧ h1 = pdk.SetError h err) := by
  have key : ∀ param, json.Unmarshal fm h.input = .ok param → mapIndex param feeKey ≠ .nil →
      ∃ out, json.Marshal fm (mapIndex param feeKey) = .ok out := by
    intro param hd hf
    exact encode_total fm _ _ (mapIndex_decoded fm hfin h.input param hd hf)
  constructor
  · intro param hd hf
    obtain ⟨out, henc⟩ := key param hd hf
    exact ⟨out, henc, by simp [pdk.OutputJSON, henc],
      map_u5c_tx_of_encoded fm h param out hd hf henc⟩
  · intro h1 hr
    rcases map_u5c_tx_cases fm h with ⟨err, hd, hr1⟩ | ⟨param, hd, hf, hr1⟩ |
      ⟨param, err, hd, hf, he, hr1⟩ | ⟨param, out, hd, hf, he, hr1⟩
    · rw [hr1] at hr
      simp only [Outcome.returned.injEq, true_and] at hr
      exact ⟨err, hd, hr.symm⟩
    · rw [hr1] at hr
      simp at hr
    · obtain ⟨out, henc⟩ := key param hd hf
      rw [henc] at he
      simp at he
    · rw [hr1] at hr
      simp at hr

/-- Scenario D: the nested fee is encoded and the call returns 0. -/
theorem encode_error_unreachable_witness :
    (∀ param, json.Unmarshal natFloat (Host.fresh scenarioD).input = .ok param →
      mapIndex param feeKey ≠ .nil →
      ∃ out, json.Marshal natFloat (mapIndex param feeKey) = .ok out ∧
        (pdk.OutputJSON natFloat (Host.fresh scenarioD) (mapIndex param feeKey)).2 = none ∧
        map_u5c_tx natFloat (Host.fresh scenarioD) =
          .returned 0 { Host.fresh scenarioD with
            output := some out, writes := (Host.fresh scenarioD).writes ++ [.output out] }) ∧
    (∀ h1, map_u5c_tx natFloat (Host.fresh scenarioD) = .returned 1 h1 →
      ∃ err, json.Unmarshal natFloat (Host.fresh scenarioD).input = .error err ∧
        h1 = pdk.SetError (Host.fresh scenarioD) err) :=
  encode_error_unreachable natFloat natFloat_lawful.parse_finite (Host.fresh scenarioD)

/-- C10: two inputs that decode to records holding the same value other than
null under `"fee"` give the same status and the same writes, whatever else the
records hold and in whatever order their keys come: both calls return 0 with
the encoding of that value as output. -/
theorem fee_only (h1 h2 : Host) (m1 m2 : List (List Char × Value F)) (v : Value F)
    (hd1 : json.Unmarshal fm h1.input = .ok (some m1))
    (hd2 : json.Unmarshal fm h2.input = .ok (some m2))
    (hf1 : mapLookup feeKey m1 = some v) (hf2 : mapLookup feeKey m2 = some v)
    (hv : v ≠ .nil) :
    (map_u5c_tx fm h1).status = (map_u5c_tx fm h2).status ∧
    (map_u5c_tx fm h1).newWrites h1 = (map_u5c_tx fm h2).newWrites h2 ∧
    (∀ out, json.Marshal fm v = .ok out →
      map_u5c_tx fm h1 =
        .returned 0 { h1 with output := some out, writes := h1.writes ++ [.output out] } ∧
      map_u5c_tx fm h2 =
        .returned 0 { h2 with output := some out, writes := h2.writes ++ [.output out] }) ∧
    (fm.ParsesFinite → ∃ out, json.Marshal fm v = .ok out) := by
  have hi1 := mapIndex_some m1 v hf1
  have hi2 := mapIndex_some m2 v hf2
  have hn1 : mapIndex (some m1) feeKey ≠ .nil := by rw [hi1]; exact hv
  have hn2 : mapIndex (some m2) feeKey ≠ .nil := by rw [hi2]; exact hv
  have hout : ∀ out, json.Marshal fm v = .ok out →
      map_u5c_tx fm h1 =
        .returned 0 { h1 with output := some out, writes := h1.writes ++ [.output out] } ∧
      map_u5c_tx fm h2 =
        .returned 0 { h2 with output := some out, writes := h2.writes ++ [.output out] } :=
    fun out henc =>
      ⟨map_u5c_tx_of_encoded fm h1 (some m1) out hd1 hn1 (by rw [hi1]; exact henc),
        map_u5c_tx_of_encoded fm h2 (some m2) out hd2 hn2 (by rw [hi2]; exact henc)⟩
  have hfin : fm.ParsesFinite → ∃ out, json.Marshal fm v = .ok out := by
    intro hfin
    have := mapIndex_decoded fm hfin h1.input (some m1) hd1 hn1
    rw [hi1] at this
    exact encode_total fm _ v this
  cases henc : json.Marshal fm v with
  | ok out =>
    obtain ⟨r1, r2⟩ := hout out henc
    refine ⟨?_, ?_, ?_, ?_⟩
    · rw [r1, r2]; rfl
    · rw [r1, r2, newWrites_returned h1 _ 0 (.output out) rfl,
        newWrites_returned h2 _ 0 (.output out) rfl]
    · intro out1 h1eq
      simp only [Except.ok.injEq] at h1eq
      subst h1eq
      exact ⟨r1, r2⟩
    · intro _; exact ⟨out, rfl⟩
  | error err =>
    have r1 := map_u5c_tx_of_encode_error fm h1 (some m1) err hd1 hn1 (by rw [hi1]; exact henc)
    have r2 := map_u5c_tx_of_encode_error fm h2 (some m2) err hd2 hn2 (by rw [hi2]; exact henc)
    refine ⟨?_, ?_, ?_, ?_⟩
    · rw [r1, r2]; rfl
    · rw [r1, r2, newWrites_returned h1 _ 1 (.error err.Error) rfl,
        newWrites_returned h2 _ 1 (.error err.Error) rfl]
    · intro out h1eq
      simp at h1eq
    · intro hf
      rw [← henc]
      exact hfin hf

/-- Scenario D and a record with the same fee, its members in the other order
and two more keys around it: both calls write `{"amount":10,"unit":"lovelace"}`. -/
theorem fee_only_witness :
    (map_u5c_tx natFloat (Host.fresh scenarioD)).status =
      (map_u5c_tx natFloat (Host.fresh scenarioD2)).status ∧
    (map_u5c_tx natFloat (Host.fresh scenarioD)).newWrites (Host.fresh scenarioD) =
      (map_u5c_tx natFloat (Host.fresh scenarioD2)).newWrites (Host.fresh scenarioD2) ∧
    (∀ out, json.Marshal natFloat feeD = .ok out →
      map_u5c_tx natFloat (Host.fresh scenarioD) =
        .returned 0 { Host.fresh scenarioD with
          output := some out, writes := (Host.fresh scenarioD).writes ++ [.output out] } ∧
      map_u5c_tx natFloat (Host.fresh scenarioD2) =
        .returned 0 { Host.fresh scenarioD2 with
          output := some out, writes := (Host.fresh scenarioD2).writes ++ [.output out] }) ∧
    (natFloat.ParsesFinite → ∃ out, json.Marshal natFloat feeD = .ok out) :=
  fee_only natFloat (Host.fresh scenarioD) (Host.fresh scenarioD2)
    [(feeKey, feeD)]
    [(feeKey, feeD), ("hash".toList, .string "abc".toList), ("slot".toList, .float64 7)]
    feeD rfl rfl rfl rfl (by simp [feeD])

end claims3

end ExtractFee
